import Mathlib

/-!
Shallow embedding of the tradingdiary inventory engine.

Sources embedded here:
  * capgains/inventory/api.py        -- transaction handlers and the Portfolio
  * capgains/inventory.py            -- partition primitives, predicates, sort keys
  * tradingdiary/inventory/report.py -- currency translation and portfolio flattening

Python Decimal values are modelled as rationals, datetimes as integers
(ordered wall-clock instants), accounts / securities / currencies as strings.
Python exceptions are modelled by an explicit error type; handlers return the
final portfolio state together with either the realized gains or the error
raised, so that mutations performed before a raise remain observable.
-/

namespace CapGains

abbrev Account := String
abbrev Security := String
abbrev Currency := String
abbrev DateTime := Int

/-- Trade transaction variant (spec section 3; fields as used by
`book_trade` in capgains/inventory/api.py). -/
structure Trade where
  uniqueid : String
  datetime : DateTime
  dtsettle : Option DateTime
  fiaccount : Account
  security : Security
  units : ℚ
  cash : ℚ
  currency : Currency
deriving DecidableEq, Repr

/-- ReturnOfCapital transaction variant (spec section 3; fields as used by
`book_returnofcapital`). -/
structure ReturnOfCapital where
  uniqueid : String
  datetime : DateTime
  dtsettle : Option DateTime
  fiaccount : Account
  security : Security
  cash : ℚ
  currency : Currency
deriving DecidableEq, Repr

/-- Split transaction variant (spec section 3; fields as used by `book_split`). -/
structure Split where
  uniqueid : String
  datetime : DateTime
  dtsettle : Option DateTime
  fiaccount : Account
  security : Security
  numerator : ℚ
  denominator : ℚ
  units : ℚ
deriving DecidableEq, Repr

/-- Transfer transaction variant (spec section 3; fields as used by
`book_transfer`). -/
structure Transfer where
  uniqueid : String
  datetime : DateTime
  dtsettle : Option DateTime
  fiaccount : Account
  security : Security
  units : ℚ
  fromfiaccount : Account
  fromsecurity : Security
  fromunits : ℚ
deriving DecidableEq, Repr

/-- Spinoff transaction variant (spec section 3; fields as used by
`book_spinoff`). -/
structure Spinoff where
  uniqueid : String
  datetime : DateTime
  dtsettle : Option DateTime
  fiaccount : Account
  security : Security
  units : ℚ
  numerator : ℚ
  denominator : ℚ
  fromsecurity : Security
  securityprice : Option ℚ
  fromsecurityprice : Option ℚ
deriving DecidableEq, Repr

/-- Exercise transaction variant (spec section 3; fields as used by
`book_exercise`). -/
structure Exercise where
  uniqueid : String
  datetime : DateTime
  dtsettle : Option DateTime
  fiaccount : Account
  security : Security
  units : ℚ
  cash : ℚ
  currency : Currency
  fromsecurity : Security
  fromunits : ℚ
deriving DecidableEq, Repr

/-- The six transaction variants dispatched on by `book`
(capgains/inventory/api.py, singledispatch). -/
inductive TransactionType
  | trade (t : Trade)
  | returnofcapital (t : ReturnOfCapital)
  | split (t : Split)
  | transfer (t : Transfer)
  | spinoff (t : Spinoff)
  | exercise (t : Exercise)
deriving DecidableEq, Repr

def TransactionType.uniqueid : TransactionType → String
  | .trade t => t.uniqueid
  | .returnofcapital t => t.uniqueid
  | .split t => t.uniqueid
  | .transfer t => t.uniqueid
  | .spinoff t => t.uniqueid
  | .exercise t => t.uniqueid

def TransactionType.datetime : TransactionType → DateTime
  | .trade t => t.datetime
  | .returnofcapital t => t.datetime
  | .split t => t.datetime
  | .transfer t => t.datetime
  | .spinoff t => t.datetime
  | .exercise t => t.datetime

def TransactionType.fiaccount : TransactionType → Account
  | .trade t => t.fiaccount
  | .returnofcapital t => t.fiaccount
  | .split t => t.fiaccount
  | .transfer t => t.fiaccount
  | .spinoff t => t.fiaccount
  | .exercise t => t.fiaccount

def TransactionType.security : TransactionType → Security
  | .trade t => t.security
  | .returnofcapital t => t.security
  | .split t => t.security
  | .transfer t => t.security
  | .spinoff t => t.security
  | .exercise t => t.security

/-- Immutable tax lot (capgains/inventory.py, `Lot` namedtuple). -/
structure Lot where
  opentransaction : TransactionType
  createtransaction : TransactionType
  units : ℚ
  price : ℚ
  currency : Currency
deriving DecidableEq, Repr

/-- Realized gain record (capgains/inventory.py, `Gain` namedtuple). -/
structure Gain where
  lot : Lot
  transaction : TransactionType
  price : ℚ
deriving DecidableEq, Repr

/-- Kinds of Python exceptions raised by the engine.  `valueError` models
ValueError (validation failures and tuple-unpacking errors), `inconsistent`
models the Inconsistent exception, `arithmeticError` models the Decimal
division errors (DivisionByZero / InvalidOperation), `assertionError` models
failed assert statements. -/
inductive Err
  | valueError
  | inconsistent
  | arithmeticError
  | assertionError
deriving DecidableEq, Repr

instance {α β : Type} [DecidableEq α] [DecidableEq β] : DecidableEq (Except α β) :=
  fun a b =>
    match a, b with
    | .ok x, .ok y =>
      if h : x = y then .isTrue (by rw [h]) else .isFalse (by simp [h])
    | .error x, .error y =>
      if h : x = y then .isTrue (by rw [h]) else .isFalse (by simp [h])
    | .ok _, .error _ => .isFalse (by simp)
    | .error _, .ok _ => .isFalse (by simp)

/-- UNITS_TOLERANCE constant (capgains/inventory/api.py line 100). -/
def UNITS_TOLERANCE : ℚ := 1 / 1000

/-- Partition a Lot at a given number of units
(capgains/inventory.py, `part_lot`).  The isinstance type check of the
source always succeeds in this typed embedding. -/
def part_lot (lot : Lot) (units : ℚ) : Except Err (Lot × Lot) :=
  if ¬ (|units| < |lot.units|) then .error .valueError
  else if ¬ (units * lot.units > 0) then .error .valueError
  else .ok ({ lot with units := units }, { lot with units := lot.units - units })

/-- Remove a selection of Lots from a position in sequential order
(capgains/inventory.py, `take_lots`; exposed as `part_units` by the
`functions` module that capgains/inventory/api.py imports).  The recursion
argument pair (remaining list, remaining cap) is exactly the loop state of
the Python implementation. -/
def take_lots (lots : List Lot) (criterion : Lot → Bool) (max_units : Option ℚ) :
    Except Err (List Lot × List Lot) :=
  match lots with
  | [] => .ok ([], [])
  | lot :: rest =>
    if criterion lot then
      match max_units with
      | none =>
        match take_lots rest criterion none with
        | .error e => .error e
        | .ok (t, l) => .ok (lot :: t, l)
      | some u =>
        if u = 0 then
          match take_lots rest criterion (some u) with
          | .error e => .error e
          | .ok (t, l) => .ok (t, lot :: l)
        else if |lot.units| ≤ |u| then
          if lot.units * u > 0 then
            match take_lots rest criterion (some (u - lot.units)) with
            | .error e => .error e
            | .ok (t, l) => .ok (lot :: t, l)
          else .error .inconsistent
        else
          if lot.units * u > 0 then
            match part_lot lot u with
            | .error e => .error e
            | .ok (taken, left) =>
              match take_lots rest criterion (some (u - taken.units)) with
              | .error e => .error e
              | .ok (t, l) => .ok (taken :: t, left :: l)
          else .error .inconsistent
    else
      match take_lots rest criterion max_units with
      | .error e => .error e
      | .ok (t, l) => .ok (t, lot :: l)

/-- Alias: the `functions.part_units` name used by capgains/inventory/api.py
for `take_lots` (the `functions` module body is not among the sources; per
the claim sources its code is `take_lots`). -/
def part_units (position : List Lot) (predicate : Lot → Bool)
    (max_units : Option ℚ) : Except Err (List Lot × List Lot) :=
  take_lots position predicate max_units

/-- Loop body of `take_basis`: split each matching Lot price by the given
fraction. -/
def take_basis_go (lots : List Lot) (criterion : Lot → Bool) (fraction : ℚ) :
    List Lot × List Lot :=
  match lots with
  | [] => ([], [])
  | lot :: rest =>
    let (t, l) := take_basis_go rest criterion fraction
    if criterion lot then
      let takenprice := lot.price * fraction
      ({ lot with price := takenprice } :: t,
       { lot with price := lot.price - takenprice } :: l)
    else (t, lot :: l)

/-- Remove a fraction of the cost from each matching Lot
(capgains/inventory.py, `take_basis`; exposed as `part_basis` by the
`functions` module). -/
def take_basis (lots : List Lot) (criterion : Lot → Bool) (fraction : ℚ) :
    Except Err (List Lot × List Lot) :=
  if 0 ≤ fraction ∧ fraction ≤ 1 then .ok (take_basis_go lots criterion fraction)
  else .error .valueError

/-- Alias: the `functions.part_basis` name used by capgains/inventory/api.py. -/
def part_basis (position : List Lot) (predicate : Lot → Bool) (fraction : ℚ) :
    Except Err (List Lot × List Lot) :=
  take_basis position predicate fraction

/-- Lots created on or before a datetime (capgains/inventory.py, `openAsOf`). -/
def openAsOf (dt : DateTime) (lot : Lot) : Bool :=
  decide (lot.createtransaction.datetime ≤ dt)

/-- Long lots created on or before a datetime
(capgains/inventory.py, `longAsOf`). -/
def longAsOf (dt : DateTime) (lot : Lot) : Bool :=
  decide (lot.createtransaction.datetime ≤ dt) && decide (0 < lot.units)

/-- Lots closable by a transaction with the given units and datetime
(capgains/inventory.py, `closableBy`; the `predicates.closable` helper called
by api.py takes the units and datetime unbundled). -/
def closable (units : ℚ) (dt : DateTime) (lot : Lot) : Bool :=
  decide (lot.createtransaction.datetime ≤ dt) && decide (lot.units * units < 0)

/-- Sort key of FIFO and LIFO (capgains/inventory.py, `sort_oldest`):
holding-period start, then opening transaction uniqueid. -/
def sort_oldest (lot : Lot) : DateTime × String :=
  (lot.opentransaction.datetime, lot.opentransaction.uniqueid)

/-- Sort key of MAXGAIN (capgains/inventory.py, `sort_cheapest`). -/
def sort_cheapest (lot : Lot) : ℚ × String :=
  (lot.price, lot.opentransaction.uniqueid)

/-- Sort key of MINGAIN (capgains/inventory.py, `sort_dearest`). -/
def sort_dearest (lot : Lot) : ℚ × String :=
  (-lot.price, lot.opentransaction.uniqueid)

/-- The four named sort strategies (capgains/inventory.py, FIFO / LIFO /
MINGAIN / MAXGAIN dicts of key function and reverse flag). -/
inductive SortType
  | fifo
  | lifo
  | mingain
  | maxgain
deriving DecidableEq, Repr

/-- Lexicographic "comes no later than" on datetime-keyed sort keys. -/
def keyLeDT (a b : DateTime × String) : Bool :=
  decide (a.1 < b.1) || (decide (a.1 = b.1) && ! decide (b.2 < a.2))

/-- Lexicographic "comes no later than" on price-keyed sort keys. -/
def keyLeQ (a b : ℚ × String) : Bool :=
  decide (a.1 < b.1) || (decide (a.1 = b.1) && ! decide (b.2 < a.2))

/-- Comparator realizing Python list.sort under each strategy.  A stable sort
with reversed comparison models `reverse=True` (Python keeps tied elements in
original order). -/
def lotLe : SortType → Lot → Lot → Bool
  | .fifo, a, b => keyLeDT (sort_oldest a) (sort_oldest b)
  | .lifo, a, b => keyLeDT (sort_oldest b) (sort_oldest a)
  | .mingain, a, b => keyLeQ (sort_dearest a) (sort_dearest b)
  | .maxgain, a, b => keyLeQ (sort_cheapest a) (sort_cheapest b)

/-- Python `position.sort(**sort)`: stable sort of a position under a
strategy. -/
def sortPosition (s : SortType) (position : List Lot) : List Lot :=
  position.mergeSort (lotLe s)

/-- Pocket: the Portfolio key (FI account, security). -/
abbrev Pocket := Account × Security

/-- Portfolio: insertion-ordered mapping of pockets to positions
(capgains/inventory/api.py, `Portfolio`, a defaultdict of lists).  Modelled
as an association list with unique keys in insertion order, exactly the
observable structure of a Python dict. -/
abbrev Portfolio := List (Pocket × List Lot)

/-- Python `portfolio.get(pocket, [])`: lookup without insertion. -/
def Portfolio.get (p : Portfolio) (k : Pocket) : List Lot :=
  (List.lookup k p).getD []

/-- Python `portfolio[pocket]` on a defaultdict: lookup that INSERTS an empty
position when the key is missing (defaultdict default_factory = list). -/
def Portfolio.getItem (p : Portfolio) (k : Pocket) : Portfolio × List Lot :=
  match List.lookup k p with
  | some v => (p, v)
  | none => (p ++ [(k, [])], [])

/-- Python `portfolio[pocket] = position`: update in place, or append a new
key in insertion order. -/
def Portfolio.set (p : Portfolio) (k : Pocket) (v : List Lot) : Portfolio :=
  match p with
  | [] => [(k, v)]
  | e :: rest => if e.1 = k then (k, v) :: rest else e :: Portfolio.set rest k v

/-- Shared closer (capgains/inventory/api.py, `_mutate_portfolio`).  Applies
units and cash to the destination pocket, closing opposite-signed lots and
opening a Lot for the leftover.  The Python in-place `position.sort` writes
the sorted list through to the portfolio when the pocket key exists; the
returned portfolio carries any mutation performed before an exception. -/
def mutate_portfolio (portfolio : Portfolio) (transaction : TransactionType)
    (units cash : ℚ) (currency : Currency)
    (opentransaction : Option TransactionType) (sort : Option SortType) :
    Portfolio × Except Err (List Gain) :=
  let pocket := (transaction.fiaccount, transaction.security)
  let position := portfolio.get pocket
  let position := sortPosition (sort.getD .fifo) position
  let portfolio :=
    if (List.lookup pocket portfolio).isSome then portfolio.set pocket position
    else portfolio
  if units = 0 then (portfolio, .error .arithmeticError)
  else
    let price := |cash / units|
    match part_units position (closable units transaction.datetime) (some (-units)) with
    | .error e => (portfolio, .error e)
    | .ok (lotsClosed, position1) =>
      let leftover := units + (lotsClosed.map (·.units)).sum
      let position2 :=
        if leftover ≠ 0 then
          position1 ++ [{ opentransaction := opentransaction.getD transaction,
                          createtransaction := transaction,
                          units := leftover, price := price, currency := currency }]
        else position1
      (portfolio.set pocket position2,
       .ok (lotsClosed.map (fun lot => { lot := lot, transaction := transaction, price := price })))

/-- Sequential consumption of the lazy generator of `_mutate_portfolio` calls
made by book_transfer / book_spinoff / book_exercise
(`list(itertools.chain.from_iterable(gains))`): one call per removed source
lot, gains concatenated; an exception mid-sequence keeps earlier mutations. -/
def book_lots (portfolio : Portfolio) (transaction : TransactionType)
    (f : Lot → ℚ × ℚ × Currency × Option TransactionType)
    (lots : List Lot) (sort : Option SortType) :
    Portfolio × Except Err (List Gain) :=
  match lots with
  | [] => (portfolio, .ok [])
  | lot :: rest =>
    let a := f lot
    match mutate_portfolio portfolio transaction a.1 a.2.1 a.2.2.1 a.2.2.2 sort with
    | (p1, .error e) => (p1, .error e)
    | (p1, .ok g) =>
      match book_lots p1 transaction f rest sort with
      | (p2, .error e) => (p2, .error e)
      | (p2, .ok gs) => (p2, .ok (g ++ gs))

/-- Trade handler (capgains/inventory/api.py, `book_trade`). -/
def book_trade (transaction : Trade) (portfolio : Portfolio)
    (sort : Option SortType) : Portfolio × Except Err (List Gain) :=
  if transaction.units = 0 then (portfolio, .error .valueError)
  else
    mutate_portfolio portfolio (.trade transaction) transaction.units
      transaction.cash transaction.currency none sort

/-- Basis-reduction step of `book_returnofcapital`
(capgains/inventory/api.py, inner function `reduceBasis`). -/
def reduceBasis (transaction : ReturnOfCapital) (unitROC : ℚ) (lot : Lot) :
    Lot × Option Gain :=
  let newBasis := lot.price - unitROC
  if newBasis < 0 then
    ({ lot with price := 0 },
     some { lot := lot, transaction := .returnofcapital transaction, price := unitROC })
  else ({ lot with price := newBasis }, none)

/-- ReturnOfCapital handler (capgains/inventory/api.py,
`book_returnofcapital`).  The sum of affected units is positive whenever the
affected list is nonempty, so the division guard is unreachable there. -/
def book_returnofcapital (transaction : ReturnOfCapital) (portfolio : Portfolio) :
    Portfolio × Except Err (List Gain) :=
  let pocket := (transaction.fiaccount, transaction.security)
  let position := portfolio.get pocket
  let unaffected := position.filter (fun lot => ! longAsOf transaction.datetime lot)
  let affected := position.filter (longAsOf transaction.datetime)
  if affected = [] then (portfolio, .error .inconsistent)
  else
    let total := (affected.map (·.units)).sum
    if total = 0 then (portfolio, .error .arithmeticError)
    else
      let unitROC := transaction.cash / total
      let pairs := affected.map (reduceBasis transaction unitROC)
      (portfolio.set pocket (pairs.map (·.1) ++ unaffected),
       .ok (pairs.filterMap (·.2)))

/-- Split handler (capgains/inventory/api.py, `book_split`).  When the
position is nonempty but no lot matches `openAsOf`, the Python
`zip(*(...))` unpacking of an empty generator raises ValueError, not
Inconsistent. -/
def book_split (transaction : Split) (portfolio : Portfolio) :
    Portfolio × Except Err (List Gain) :=
  if transaction.denominator = 0 then (portfolio, .error .arithmeticError)
  else
    let splitRatio := transaction.numerator / transaction.denominator
    let pocket := (transaction.fiaccount, transaction.security)
    let position := portfolio.get pocket
    if position = [] then (portfolio, .error .inconsistent)
    else
      let unaffected := position.filter (fun lot => ! openAsOf transaction.datetime lot)
      let affected := position.filter (openAsOf transaction.datetime)
      if affected = [] then (portfolio, .error .valueError)
      else if splitRatio = 0 then (portfolio, .error .arithmeticError)
      else
        let position_new := affected.map (fun lot =>
          { lot with units := lot.units * splitRatio, price := lot.price / splitRatio })
        let newUnits := (position_new.map (·.units)).sum - (affected.map (·.units)).sum
        if UNITS_TOLERANCE < |newUnits - transaction.units| then
          (portfolio, .error .inconsistent)
        else (portfolio.set pocket (position_new ++ unaffected), .ok [])

/-- Transfer handler (capgains/inventory/api.py, `book_transfer`).  The
source pocket is read through defaultdict `__getitem__`, which inserts an
empty position when the key is missing (the KeyError except-branch of the
source is dead code for a defaultdict Portfolio). -/
def book_transfer (transaction : Transfer) (portfolio : Portfolio)
    (sort : Option SortType) : Portfolio × Except Err (List Gain) :=
  if 0 ≤ transaction.units * transaction.fromunits then (portfolio, .error .valueError)
  else
    let sourcePocket := (transaction.fromfiaccount, transaction.fromsecurity)
    let pair := portfolio.getItem sourcePocket
    let portfolio := pair.1
    match part_units pair.2 (openAsOf transaction.datetime) (some (-transaction.fromunits)) with
    | .error e => (portfolio, .error e)
    | .ok (lotsRemoved, sourcePosition1) =>
      let unitsRemoved := (lotsRemoved.map (·.units)).sum
      if UNITS_TOLERANCE < |unitsRemoved + transaction.fromunits| then
        (portfolio, .error .inconsistent)
      else
        let portfolio := portfolio.set sourcePocket sourcePosition1
        let transferRatio := -transaction.units / transaction.fromunits
        book_lots portfolio (.transfer transaction)
          (fun lot => (lot.units * transferRatio, -lot.price * lot.units,
                       lot.currency, some lot.opentransaction))
          lotsRemoved sort

/-- Spinoff handler (capgains/inventory/api.py, `book_spinoff`).  The source
pocket is read through defaultdict `__getitem__` and then sorted IN PLACE
before any validation, so that sort is visible even when the handler later
raises. -/
def book_spinoff (transaction : Spinoff) (portfolio : Portfolio)
    (sort : Option SortType) : Portfolio × Except Err (List Gain) :=
  if transaction.numerator ≤ 0 ∨ transaction.denominator ≤ 0 then
    (portfolio, .error .valueError)
  else
    let sourcePocket := (transaction.fiaccount, transaction.fromsecurity)
    let pair := portfolio.getItem sourcePocket
    let sourcePosition := sortPosition (sort.getD .fifo) pair.2
    let portfolio := pair.1.set sourcePocket sourcePosition
    let spinRatio := transaction.numerator / transaction.denominator
    let costFractionE : Except Err ℚ :=
      match transaction.securityprice, transaction.fromsecurityprice with
      | some sp, some fsp =>
        let spinoffFMV := sp * transaction.units
        let spunoffFMV := fsp * transaction.units / spinRatio
        if spinoffFMV + spunoffFMV = 0 then .error .arithmeticError
        else .ok (spinoffFMV / (spinoffFMV + spunoffFMV))
      | _, _ => .ok 0
    match costFractionE with
    | .error e => (portfolio, .error e)
    | .ok costFraction =>
      match part_basis sourcePosition (openAsOf transaction.datetime) costFraction with
      | .error e => (portfolio, .error e)
      | .ok (lotsRemoved, sourcePosition1) =>
        let unitsRemoved := (lotsRemoved.map (·.units)).sum
        if UNITS_TOLERANCE < |unitsRemoved * spinRatio - transaction.units| then
          (portfolio, .error .inconsistent)
        else
          let portfolio := portfolio.set sourcePocket sourcePosition1
          book_lots portfolio (.spinoff transaction)
            (fun lotFrom => (lotFrom.units * spinRatio, -lotFrom.price * lotFrom.units,
                             lotFrom.currency, some lotFrom.opentransaction))
            lotsRemoved sort

/-- Exercise handler (capgains/inventory/api.py, `book_exercise`).  The
multiplier and strike price divisions happen after the source position has
been written back, so their Decimal errors leave the removal visible. -/
def book_exercise (transaction : Exercise) (portfolio : Portfolio)
    (sort : Option SortType) : Portfolio × Except Err (List Gain) :=
  let sourcePocket := (transaction.fiaccount, transaction.fromsecurity)
  let sourcePosition := portfolio.get sourcePocket
  match part_units sourcePosition (openAsOf transaction.datetime) (some (-transaction.fromunits)) with
  | .error e => (portfolio, .error e)
  | .ok (lotsRemoved, sourcePosition1) =>
    let unitsRemoved := (lotsRemoved.map (·.units)).sum
    if UNITS_TOLERANCE < |unitsRemoved| - |transaction.fromunits| then
      (portfolio, .error .inconsistent)
    else
      let portfolio := portfolio.set sourcePocket sourcePosition1
      if transaction.fromunits = 0 ∨ transaction.units = 0 then
        (portfolio, .error .arithmeticError)
      else
        let multiplier := |transaction.units / transaction.fromunits|
        let strikePrice := |transaction.cash / transaction.units|
        book_lots portfolio (.exercise transaction)
          (fun lot => (lot.units * multiplier,
                       lot.price * -lot.units + lot.units * multiplier * strikePrice,
                       lot.currency, none))
          lotsRemoved sort

/-- Dispatcher (capgains/inventory/api.py, `book`): select the handler by
transaction variant; the sort strategy is threaded into the handlers that
use it (ReturnOfCapital and Split ignore it). -/
def book (transaction : TransactionType) (portfolio : Portfolio)
    (sort : Option SortType) : Portfolio × Except Err (List Gain) :=
  match transaction with
  | .trade t => book_trade t portfolio sort
  | .returnofcapital t => book_returnofcapital t portfolio
  | .split t => book_split t portfolio
  | .transfer t => book_transfer t portfolio sort
  | .spinoff t => book_spinoff t portfolio sort
  | .exercise t => book_exercise t portfolio sort

/-- Currency translation of a transaction for reporting
(tradingdiary/inventory/report.py, `translate_transaction` singledispatch):
Trade / ReturnOfCapital / Exercise get `cash` scaled and `currency` set;
Spinoff gets `securityprice` and `fromsecurityprice` scaled (when present,
cf. `_scaleAttr`); every other variant is returned unmodified by the default
registration. -/
def translate_transaction (transaction : TransactionType) (currency : Currency)
    (rate : ℚ) : TransactionType :=
  match transaction with
  | .trade t => .trade { t with cash := t.cash * rate, currency := currency }
  | .returnofcapital t =>
    .returnofcapital { t with cash := t.cash * rate, currency := currency }
  | .exercise t => .exercise { t with cash := t.cash * rate, currency := currency }
  | .spinoff t =>
    .spinoff { t with securityprice := t.securityprice.map (· * rate),
                      fromsecurityprice := t.fromsecurityprice.map (· * rate) }
  | tx => tx

/-- Modelled from the spec: `utils.round_decimal` (module tradingdiary/utils
is not among the sources).  `export_flatlot` calls it with power = -2; it is
modelled as Decimal quantize to two decimal places with the Decimal default
ROUND_HALF_EVEN rounding. -/
def roundHalfEven (q : ℚ) : ℤ :=
  let f := ⌊q⌋
  let r := q - f
  if r < 1 / 2 then f
  else if 1 / 2 < r then f + 1
  else if Even f then f else f + 1

/-- Round a quantity to two decimal places (cf. `roundHalfEven`). -/
def round2 (q : ℚ) : ℚ :=
  (roundHalfEven (q * 100) : ℚ) / 100

/-- Un-nested lot row (tradingdiary/inventory/report.py, `FlatLot`).  The
FiAccount and Security model objects (whose module is not among the sources)
are identified by their account id and ticker strings; the brokerid, secname
and alternative security-id columns carry no information the round trip
depends on and are elided. -/
structure FlatLot where
  acctid : Account
  ticker : Security
  opendt : Option DateTime
  opentxid : Option String
  units : ℚ
  cost : ℚ
  currency : Currency
deriving DecidableEq, Repr

/-- Flatten one Lot (tradingdiary/inventory/report.py, `flatten_lot`). -/
def flatten_lot (account : Account) (security : Security) (lot : Lot) : FlatLot :=
  { acctid := account, ticker := security,
    opendt := some lot.opentransaction.datetime,
    opentxid := some lot.opentransaction.uniqueid,
    units := lot.units, cost := lot.units * lot.price, currency := lot.currency }

/-- Accumulator of `consolidate_lots` (tradingdiary/inventory/report.py).
The source asserts that all lots of the position share one currency; the
model keeps the currency of the first lot. -/
def consolidate_accumulate (account : Account) (security : Security)
    (flatlot : Option FlatLot) (lot : Lot) : Option FlatLot :=
  match flatlot with
  | some fl => some { fl with units := fl.units + lot.units,
                              cost := fl.cost + lot.units * lot.price }
  | none => some { acctid := account, ticker := security, opendt := none,
                   opentxid := none, units := lot.units,
                   cost := lot.units * lot.price, currency := lot.currency }

/-- Condense a position into at most one FlatLot
(tradingdiary/inventory/report.py, `consolidate_lots`). -/
def consolidate_lots (account : Account) (security : Security)
    (position : List Lot) : List FlatLot :=
  match position.foldl (consolidate_accumulate account security) none with
  | some fl => [fl]
  | none => []

/-- Serialization formatting of a FlatLot row
(tradingdiary/inventory/report.py, `export_flatlot`): units and cost rounded
to two decimal places. -/
def export_flatlot (flatlot : FlatLot) : FlatLot :=
  { flatlot with units := round2 flatlot.units, cost := round2 flatlot.cost }

/-- Flatten a Portfolio into rows (tradingdiary/inventory/report.py,
`flatten_portfolio`): per pocket, flatten (or consolidate) each lot, export
it, and keep the rows whose exported units are nonzero. -/
def flatten_portfolio (portfolio : Portfolio) (consolidate : Bool) : List FlatLot :=
  match portfolio with
  | [] => []
  | (k, position) :: rest =>
    let flatlots :=
      if consolidate then consolidate_lots k.1 k.2 position
      else position.map (flatten_lot k.1 k.2)
    (flatlots.map export_flatlot).filter (fun row => decide (row.units ≠ 0))
      ++ flatten_portfolio rest consolidate

/-- Mock opening transaction created when unflattening
(inventory.types.DummyTransaction with type TRADE; only the uniqueid and
datetime are populated from the row, the remaining fields are empty). -/
def dummyOpenTransaction (opentxid : String) (opendt : DateTime) : TransactionType :=
  .trade { uniqueid := opentxid, datetime := opendt, dtsettle := none,
           fiaccount := "", security := "", units := 0, cash := 0, currency := "" }

/-- Reconstitute a Lot from a row (tradingdiary/inventory/report.py,
`unflatten_lot`).  The source asserts that opendt and opentxid are present;
price is recovered as cost / units. -/
def unflatten_lot (flatlot : FlatLot) : Except Err (Pocket × Lot) :=
  match flatlot.opentxid, flatlot.opendt with
  | some opentxid, some opendt =>
    let opentransaction := dummyOpenTransaction opentxid opendt
    .ok ((flatlot.acctid, flatlot.ticker),
         { opentransaction := opentransaction, createtransaction := opentransaction,
           units := flatlot.units, price := flatlot.cost / flatlot.units,
           currency := flatlot.currency })
  | _, _ => .error .assertionError

/-- Python `portfolio[(account, security)].append(lot)` on the defaultdict:
defaultdict lookup (inserting an empty position for a missing key) followed
by in-place append. -/
def Portfolio.appendLot (p : Portfolio) (k : Pocket) (lot : Lot) : Portfolio :=
  let pair := Portfolio.getItem p k
  pair.1.set k (pair.2 ++ [lot])

/-- Row-consuming loop of `unflatten_portfolio`: rows with zero units are
dropped, the rest are unflattened and appended to their pocket. -/
def unflatten_rows (rows : List FlatLot) (portfolio : Portfolio) :
    Except Err Portfolio :=
  match rows with
  | [] => .ok portfolio
  | row :: rest =>
    if row.units = 0 then unflatten_rows rest portfolio
    else
      match unflatten_lot row with
      | .error e => .error e
      | .ok (k, lot) => unflatten_rows rest (portfolio.appendLot k lot)

/-- Rebuild a Portfolio from rows (tradingdiary/inventory/report.py,
`unflatten_portfolio`), starting from an empty Portfolio. -/
def unflatten_portfolio (rows : List FlatLot) : Except Err Portfolio :=
  unflatten_rows rows []

/-- The lot produced by flattening a lot (without consolidation) and
unflattening the resulting row: units and cost are rounded to two decimal
places and the opening transaction is collapsed to the mock transaction
carrying only its uniqueid and datetime. -/
def tripLot (lot : Lot) : Lot :=
  { opentransaction := dummyOpenTransaction lot.opentransaction.uniqueid
      lot.opentransaction.datetime,
    createtransaction := dummyOpenTransaction lot.opentransaction.uniqueid
      lot.opentransaction.datetime,
    units := round2 lot.units,
    price := round2 (lot.units * lot.price) / round2 lot.units,
    currency := lot.currency }

/-! Concrete inputs used to instantiate the scenario claims. -/

/-- Buy of 100 units at price 10 (cash 1000 out) on day 1. -/
def c2_buy1 : Trade :=
  { uniqueid := "b1", datetime := 1, dtsettle := none, fiaccount := "A",
    security := "S", units := 100, cash := -1000, currency := "USD" }

/-- Buy of 200 units at price 11 (cash 2200 out) on day 2. -/
def c2_buy2 : Trade :=
  { uniqueid := "b2", datetime := 2, dtsettle := none, fiaccount := "A",
    security := "S", units := 200, cash := -2200, currency := "USD" }

/-- Sell of 150 units at price 15 (cash 2250 in) on day 3. -/
def c2_sell : Trade :=
  { uniqueid := "s1", datetime := 3, dtsettle := none, fiaccount := "A",
    security := "S", units := -150, cash := 2250, currency := "USD" }

/-- Lot opened by `c2_buy1`. -/
def c2_lot1 : Lot :=
  { opentransaction := .trade c2_buy1, createtransaction := .trade c2_buy1,
    units := 100, price := 10, currency := "USD" }

/-- Lot opened by `c2_buy2`. -/
def c2_lot2 : Lot :=
  { opentransaction := .trade c2_buy2, createtransaction := .trade c2_buy2,
    units := 200, price := 11, currency := "USD" }

/-- The single pocket of the scenario claims. -/
def c2_pocket : Pocket := ("A", "S")

/-- Residual part of the second lot after the partial close. -/
def c2_lot2_residual : Lot := { c2_lot2 with units := 150 }

/-- Closed part of the second lot (snapshot bound into the second Gain). -/
def c2_lot2_closed : Lot := { c2_lot2 with units := 50 }

/-- Transfer whose source pocket is absent from the portfolio. -/
def c1_transfer : Transfer :=
  { uniqueid := "t1", datetime := 5, dtsettle := none, fiaccount := "A",
    security := "S", units := 1, fromfiaccount := "FA", fromsecurity := "FS",
    fromunits := -1 }

/-- Split dated before the only lot of the position was created. -/
def c6_split : Split :=
  { uniqueid := "sp", datetime := 0, dtsettle := none, fiaccount := "A",
    security := "S", numerator := 2, denominator := 1, units := 100 }

/-- Lot with a cost basis of one third, whose flattened cost rounds to 0.33. -/
def c9_lot : Lot :=
  { opentransaction := .trade c2_buy1, createtransaction := .trade c2_buy1,
    units := 1, price := 1 / 3, currency := "USD" }

/-- Transfer of the full 100-unit source position from pocket (FA, FS) into
pocket (A, S). -/
def c7_transfer : Transfer :=
  { uniqueid := "t7", datetime := 5, dtsettle := none, fiaccount := "A",
    security := "S", units := 100, fromfiaccount := "FA", fromsecurity := "FS",
    fromunits := -100 }

/-- Destination lot created by `c7_transfer`: holding period (the
opentransaction) comes from the source lot, the createtransaction is the
transfer itself. -/
def c7_dest_lot : Lot :=
  { opentransaction := .trade c2_buy1, createtransaction := .transfer c7_transfer,
    units := 100, price := 10, currency := "USD" }

/-- Exercise of 100 option units delivering 100 shares, against an option
pocket that holds only 50 units. -/
def c10_exercise : Exercise :=
  { uniqueid := "x1", datetime := 5, dtsettle := none, fiaccount := "A",
    security := "S", units := 100, cash := -1000, currency := "USD",
    fromsecurity := "OPT", fromunits := -100 }

/-- The insufficient option position: 50 units where 100 are called for. -/
def c10_option_lot : Lot :=
  { opentransaction := .trade c2_buy1, createtransaction := .trade c2_buy1,
    units := 50, price := 2, currency := "USD" }

/-! Theorems settling the claims, preceded by supporting lemmas. -/

theorem Portfolio.lookup_set_self (p : Portfolio) (k : Pocket) (v : List Lot) :
    List.lookup k (Portfolio.set p k v) = some v := by
  induction p with
  | nil => simp [Portfolio.set]
  | cons e rest ih =>
    by_cases h : e.1 = k
    · simp [Portfolio.set, h]
    · simp only [Portfolio.set, if_neg h]
      have hne : (k == e.1) = false := by
        simp [beq_iff_eq]
        exact fun hk => h hk.symm
      cases e with
      | mk k2 v2 => simpa [List.lookup_cons, hne] using ih

theorem Portfolio.lookup_set_ne (p : Portfolio) (k k2 : Pocket) (v : List Lot)
    (h : k2 ≠ k) : List.lookup k2 (Portfolio.set p k v) = List.lookup k2 p := by
  induction p with
  | nil => simp [Portfolio.set, beq_false_of_ne h, h]
  | cons e rest ih =>
    by_cases he : e.1 = k
    · cases e with
      | mk k1 v1 =>
        simp only at he
        subst he
        simp [Portfolio.set, List.lookup_cons, beq_false_of_ne h]
    · cases e with
      | mk k1 v1 =>
        simp only at he
        simp only [Portfolio.set, if_neg he]
        by_cases h2 : k2 = k1
        · subst h2
          simp [List.lookup_cons]
        · simp [List.lookup_cons, beq_false_of_ne h2, ih]

theorem Portfolio.get_set_self (p : Portfolio) (k : Pocket) (v : List Lot) :
    Portfolio.get (Portfolio.set p k v) k = v := by
  simp [Portfolio.get, Portfolio.lookup_set_self]

theorem Portfolio.get_set_ne (p : Portfolio) (k k2 : Pocket) (v : List Lot)
    (h : k2 ≠ k) : Portfolio.get (Portfolio.set p k v) k2 = Portfolio.get p k2 := by
  simp [Portfolio.get, Portfolio.lookup_set_ne p k k2 v h]

theorem Portfolio.getItem_snd (p : Portfolio) (k : Pocket) :
    (Portfolio.getItem p k).2 = Portfolio.get p k := by
  unfold Portfolio.getItem Portfolio.get
  cases h : List.lookup k p <;> simp [h]

theorem Portfolio.lookup_append_single_ne (p : Portfolio) (k k2 : Pocket)
    (v : List Lot) (h : k2 ≠ k) :
    List.lookup k2 (p ++ [(k, v)]) = List.lookup k2 p := by
  induction p with
  | nil => simp [beq_false_of_ne h, h]
  | cons e rest ih =>
    cases e with
    | mk k1 v1 =>
      by_cases h2 : k2 = k1
      · subst h2; simp [List.lookup_cons]
      · simp [List.lookup_cons, beq_false_of_ne h2, ih]

theorem Portfolio.getItem_fst_get (p : Portfolio) (k k2 : Pocket) :
    Portfolio.get ((Portfolio.getItem p k).1) k2 = Portfolio.get p k2 := by
  unfold Portfolio.getItem
  cases h : List.lookup k p with
  | some v => simp
  | none =>
    by_cases h2 : k2 = k
    · subst h2
      unfold Portfolio.get
      simp only [h]
      induction p with
      | nil => simp
      | cons e rest ih =>
        cases e with
        | mk k1 v1 =>
          by_cases h3 : k2 = k1
          · subst h3; simp_all [List.lookup_cons]
          · simp only [List.lookup_cons, beq_false_of_ne h3] at h ⊢
            simp only [List.cons_append]
            rw [List.lookup_cons]
            simp only [beq_false_of_ne h3]
            exact ih h
    · unfold Portfolio.get
      rw [Portfolio.lookup_append_single_ne p k k2 [] h2]

theorem take_lots_sum_units (lots : List Lot) (c : Lot → Bool) (mu : Option ℚ)
    (t l : List Lot) (h : take_lots lots c mu = .ok (t, l)) :
    (t.map (·.units)).sum + (l.map (·.units)).sum = (lots.map (·.units)).sum := by
  induction lots generalizing mu t l with
  | nil =>
    simp only [take_lots] at h
    cases h
    simp
  | cons lot rest ih =>
    simp only [take_lots] at h
    by_cases hc : c lot
    · simp only [if_pos hc] at h
      match mu with
      | none =>
        cases hrec : take_lots rest c none with
        | error e => rw [hrec] at h; cases h
        | ok pair =>
          rw [hrec] at h
          obtain ⟨t2, l2⟩ := pair
          cases h
          have := ih _ _ _ hrec
          simp only [List.map_cons, List.sum_cons]
          linarith
      | some u =>
        by_cases hu : u = 0
        · simp only [if_pos hu] at h
          cases hrec : take_lots rest c (some u) with
          | error e => rw [hrec] at h; cases h
          | ok pair =>
            rw [hrec] at h
            obtain ⟨t2, l2⟩ := pair
            cases h
            have := ih _ _ _ hrec
            simp only [List.map_cons, List.sum_cons]
            linarith
        · simp only [if_neg hu] at h
          by_cases habs : |lot.units| ≤ |u|
          · simp only [if_pos habs] at h
            by_cases hsgn : lot.units * u > 0
            · simp only [if_pos hsgn] at h
              cases hrec : take_lots rest c (some (u - lot.units)) with
              | error e => rw [hrec] at h; cases h
              | ok pair =>
                rw [hrec] at h
                obtain ⟨t2, l2⟩ := pair
                cases h
                have := ih _ _ _ hrec
                simp only [List.map_cons, List.sum_cons]
                linarith
            · simp only [if_neg hsgn] at h; cases h
          · simp only [if_neg habs] at h
            by_cases hsgn : lot.units * u > 0
            · simp only [if_pos hsgn] at h
              have hlt : |u| < |lot.units| := lt_of_not_ge (fun hgt => habs hgt)
              have hp : part_lot lot u
                  = .ok ({ lot with units := u }, { lot with units := lot.units - u }) := by
                unfold part_lot
                rw [if_neg (by simpa using hlt), if_neg (by
                  simp only [not_not]
                  calc (0:ℚ) < lot.units * u := hsgn
                    _ = u * lot.units := by ring)]
              rw [hp] at h
              dsimp only at h
              cases hrec : take_lots rest c (some (u - u)) with
              | error e => rw [hrec] at h; cases h
              | ok pair =>
                rw [hrec] at h
                obtain ⟨t2, l2⟩ := pair
                cases h
                have := ih _ _ _ hrec
                simp only [List.map_cons, List.sum_cons]
                linarith
            · simp only [if_neg hsgn] at h; cases h
    · simp only [if_neg hc] at h
      cases hrec : take_lots rest c mu with
      | error e => rw [hrec] at h; cases h
      | ok pair =>
        rw [hrec] at h
        obtain ⟨t2, l2⟩ := pair
        cases h
        have := ih _ _ _ hrec
        simp only [List.map_cons, List.sum_cons]
        linarith

theorem take_lots_none_eq (lots : List Lot) (c : Lot → Bool) :
    take_lots lots c none = .ok (lots.filter c, lots.filter (fun x => ! c x)) := by
  induction lots with
  | nil => simp [take_lots]
  | cons lot rest ih =>
    by_cases hc : c lot <;> simp [take_lots, hc, ih, List.filter_cons]

theorem take_lots_opposite_sign (lot : Lot) (rest : List Lot) (c : Lot → Bool)
    (u : ℚ) (hc : c lot = true) (hu : u ≠ 0) (hs : lot.units * u < 0) :
    take_lots (lot :: rest) c (some u) = .error .inconsistent := by
  have hsgn : ¬ lot.units * u > 0 := by linarith
  by_cases habs : |lot.units| ≤ |u| <;>
    simp [take_lots, hc, hu, habs, hsgn]

theorem take_lots_taken_nonzero (lots : List Lot) (c : Lot → Bool) (u : ℚ)
    (t l : List Lot) (h : take_lots lots c (some u) = .ok (t, l)) :
    ∀ x ∈ t, x.units ≠ 0 := by
  induction lots generalizing u t l with
  | nil =>
    simp only [take_lots] at h
    cases h
    simp
  | cons lot rest ih =>
    simp only [take_lots] at h
    by_cases hc : c lot
    · simp only [if_pos hc] at h
      by_cases hu : u = 0
      · simp only [if_pos hu] at h
        cases hrec : take_lots rest c (some u) with
        | error e => rw [hrec] at h; cases h
        | ok pair =>
          rw [hrec] at h
          obtain ⟨t2, l2⟩ := pair
          cases h
          exact ih _ _ _ hrec
      · simp only [if_neg hu] at h
        by_cases habs : |lot.units| ≤ |u|
        · simp only [if_pos habs] at h
          by_cases hsgn : lot.units * u > 0
          · simp only [if_pos hsgn] at h
            cases hrec : take_lots rest c (some (u - lot.units)) with
            | error e => rw [hrec] at h; cases h
            | ok pair =>
              rw [hrec] at h
              obtain ⟨t2, l2⟩ := pair
              cases h
              intro x hx
              rcases List.mem_cons.mp hx with hx | hx
              · subst hx
                intro h0
                rw [h0, zero_mul] at hsgn
                exact lt_irrefl 0 hsgn
              · exact ih _ _ _ hrec x hx
          · simp only [if_neg hsgn] at h; cases h
        · simp only [if_neg habs] at h
          by_cases hsgn : lot.units * u > 0
          · simp only [if_pos hsgn] at h
            have hlt : |u| < |lot.units| := lt_of_not_ge (fun hgt => habs hgt)
            have hp : part_lot lot u
                = .ok ({ lot with units := u }, { lot with units := lot.units - u }) := by
              unfold part_lot
              rw [if_neg (by simpa using hlt), if_neg (by
                simp only [not_not]
                calc (0:ℚ) < lot.units * u := hsgn
                  _ = u * lot.units := by ring)]
            rw [hp] at h
            dsimp only at h
            cases hrec : take_lots rest c (some (u - u)) with
            | error e => rw [hrec] at h; cases h
            | ok pair =>
              rw [hrec] at h
              obtain ⟨t2, l2⟩ := pair
              cases h
              intro x hx
              rcases List.mem_cons.mp hx with hx | hx
              · subst hx
                intro h0
                simp only at h0
                rw [h0, mul_zero] at hsgn
                exact lt_irrefl 0 hsgn
              · exact ih _ _ _ hrec x hx
          · simp only [if_neg hsgn] at h; cases h
    · simp only [if_neg hc] at h
      cases hrec : take_lots rest c (some u) with
      | error e => rw [hrec] at h; cases h
      | ok pair =>
        rw [hrec] at h
        obtain ⟨t2, l2⟩ := pair
        cases h
        exact ih _ _ _ hrec

theorem take_lots_mem_opentx (lots : List Lot) (c : Lot → Bool) (mu : Option ℚ)
    (t l : List Lot) (h : take_lots lots c mu = .ok (t, l)) :
    (∀ x ∈ t, x.opentransaction ∈ lots.map (·.opentransaction))
    ∧ (∀ x ∈ l, x.opentransaction ∈ lots.map (·.opentransaction)) := by
  induction lots generalizing mu t l with
  | nil =>
    simp only [take_lots] at h
    cases h
    simp
  | cons lot rest ih =>
    simp only [take_lots] at h
    by_cases hc : c lot
    · simp only [if_pos hc] at h
      match mu with
      | none =>
        cases hrec : take_lots rest c none with
        | error e => rw [hrec] at h; cases h
        | ok pair =>
          rw [hrec] at h
          obtain ⟨t2, l2⟩ := pair
          cases h
          obtain ⟨ht, hl⟩ := ih _ _ _ hrec
          constructor
          · intro x hx
            rcases List.mem_cons.mp hx with hx | hx
            · subst hx; simp
            · simp only [List.map_cons, List.mem_cons]
              exact Or.inr (ht x hx)
          · intro x hx
            simp only [List.map_cons, List.mem_cons]
            exact Or.inr (hl x hx)
      | some u =>
        by_cases hu : u = 0
        · simp only [if_pos hu] at h
          cases hrec : take_lots rest c (some u) with
          | error e => rw [hrec] at h; cases h
          | ok pair =>
            rw [hrec] at h
            obtain ⟨t2, l2⟩ := pair
            cases h
            obtain ⟨ht, hl⟩ := ih _ _ _ hrec
            constructor
            · intro x hx
              simp only [List.map_cons, List.mem_cons]
              exact Or.inr (ht x hx)
            · intro x hx
              rcases List.mem_cons.mp hx with hx | hx
              · subst hx; simp
              · simp only [List.map_cons, List.mem_cons]
                exact Or.inr (hl x hx)
        · simp only [if_neg hu] at h
          by_cases habs : |lot.units| ≤ |u|
          · simp only [if_pos habs] at h
            by_cases hsgn : lot.units * u > 0
            · simp only [if_pos hsgn] at h
              cases hrec : take_lots rest c (some (u - lot.units)) with
              | error e => rw [hrec] at h; cases h
              | ok pair =>
                rw [hrec] at h
                obtain ⟨t2, l2⟩ := pair
                cases h
                obtain ⟨ht, hl⟩ := ih _ _ _ hrec
                constructor
                · intro x hx
                  rcases List.mem_cons.mp hx with hx | hx
                  · subst hx; simp
                  · simp only [List.map_cons, List.mem_cons]
                    exact Or.inr (ht x hx)
                · intro x hx
                  simp only [List.map_cons, List.mem_cons]
                  exact Or.inr (hl x hx)
            · simp only [if_neg hsgn] at h; cases h
          · simp only [if_neg habs] at h
            by_cases hsgn : lot.units * u > 0
            · simp only [if_pos hsgn] at h
              have hlt : |u| < |lot.units| := lt_of_not_ge (fun hgt => habs hgt)
              have hp : part_lot lot u
                  = .ok ({ lot with units := u }, { lot with units := lot.units - u }) := by
                unfold part_lot
                rw [if_neg (by simpa using hlt), if_neg (by
                  simp only [not_not]
                  calc (0:ℚ) < lot.units * u := hsgn
                    _ = u * lot.units := by ring)]
              rw [hp] at h
              dsimp only at h
              cases hrec : take_lots rest c (some (u - u)) with
              | error e => rw [hrec] at h; cases h
              | ok pair =>
                rw [hrec] at h
                obtain ⟨t2, l2⟩ := pair
                cases h
                obtain ⟨ht, hl⟩ := ih _ _ _ hrec
                constructor
                · intro x hx
                  rcases List.mem_cons.mp hx with hx | hx
                  · subst hx; simp
                  · simp only [List.map_cons, List.mem_cons]
                    exact Or.inr (ht x hx)
                · intro x hx
                  rcases List.mem_cons.mp hx with hx | hx
                  · subst hx; simp
                  · simp only [List.map_cons, List.mem_cons]
                    exact Or.inr (hl x hx)
            · simp only [if_neg hsgn] at h; cases h
    · simp only [if_neg hc] at h
      cases hrec : take_lots rest c mu with
      | error e => rw [hrec] at h; cases h
      | ok pair =>
        rw [hrec] at h
        obtain ⟨t2, l2⟩ := pair
        cases h
        obtain ⟨ht, hl⟩ := ih _ _ _ hrec
        constructor
        · intro x hx
          simp only [List.map_cons, List.mem_cons]
          exact Or.inr (ht x hx)
        · intro x hx
          rcases List.mem_cons.mp hx with hx | hx
          · subst hx; simp
          · simp only [List.map_cons, List.mem_cons]
            exact Or.inr (hl x hx)

theorem take_lots_closable_ok (lots : List Lot) (units : ℚ) (dt : DateTime)
    (u : ℚ) (hu : u * units ≤ 0) :
    ∃ t l, take_lots lots (closable units dt) (some u) = .ok (t, l) := by
  induction lots generalizing u with
  | nil => exact ⟨[], [], by simp [take_lots]⟩
  | cons lot rest ih =>
    by_cases hc : closable units dt lot
    · have hsl : lot.units * units < 0 := by
        have h2 := hc
        simp only [closable, Bool.and_eq_true, decide_eq_true_eq] at h2
        exact h2.2
      by_cases hu0 : u = 0
      · subst hu0
        obtain ⟨t, l, hrec⟩ := ih 0 hu
        exact ⟨t, lot :: l, by simp [take_lots, hc, hrec]⟩
      · have hunits : units ≠ 0 := by
          intro h0
          rw [h0, mul_zero] at hsl
          exact lt_irrefl 0 hsl
        have huu : u * units < 0 :=
          lt_of_le_of_ne hu (mul_ne_zero hu0 hunits)
        have hpos : lot.units * u > 0 := by
          nlinarith [mul_pos_of_neg_of_neg hsl huu, sq_nonneg units,
            mul_self_nonneg units]
        by_cases habs : |lot.units| ≤ |u|
        · have hinv : (u - lot.units) * units ≤ 0 := by
            have h1 : |lot.units * units| ≤ |u * units| := by
              rw [abs_mul, abs_mul]
              exact mul_le_mul_of_nonneg_right habs (abs_nonneg units)
            have h2 : u * units = -|u * units| := by
              rw [abs_of_neg huu]; ring
            have h3 : lot.units * units = -|lot.units * units| := by
              rw [abs_of_neg hsl]; ring
            have h4 : (u - lot.units) * units = u * units - lot.units * units := by
              ring
            linarith
          obtain ⟨t, l, hrec⟩ := ih (u - lot.units) hinv
          exact ⟨lot :: t, l, by simp [take_lots, hc, hu0, habs, hpos, hrec]⟩
        · have hlt : |u| < |lot.units| := lt_of_not_ge (fun hgt => habs hgt)
          have hp : part_lot lot u
              = .ok ({ lot with units := u }, { lot with units := lot.units - u }) := by
            unfold part_lot
            rw [if_neg (by simpa using hlt), if_neg (by
              simp only [not_not]
              calc (0:ℚ) < lot.units * u := hpos
                _ = u * lot.units := by ring)]
          have hinv : (u - u) * units ≤ 0 := by
            have : (u - u) * units = 0 := by ring
            rw [this]
          obtain ⟨t, l, hrec⟩ := ih (u - u) hinv
          refine ⟨{ lot with units := u } :: t, { lot with units := lot.units - u } :: l, ?_⟩
          simp only [take_lots, if_pos hc, if_neg hu0, if_neg habs, if_pos hpos, hp]
          rw [hrec]
    · obtain ⟨t, l, hrec⟩ := ih u hu
      exact ⟨t, lot :: l, by simp [take_lots, hc, hrec]⟩

theorem take_basis_go_eq (lots : List Lot) (c : Lot → Bool) (f : ℚ) :
    take_basis_go lots c f
      = ((lots.filter c).map (fun x => { x with price := x.price * f }),
         lots.map (fun x => if c x then { x with price := x.price - x.price * f } else x)) := by
  induction lots with
  | nil => simp [take_basis_go]
  | cons lot rest ih =>
    rcases hre : take_basis_go rest c f with ⟨t, l⟩
    rw [hre] at ih
    by_cases hc : c lot <;>
      simp_all [take_basis_go, hre, hc, List.filter_cons]

theorem take_basis_ok (lots : List Lot) (c : Lot → Bool) (f : ℚ)
    (h0 : 0 ≤ f) (h1 : f ≤ 1) :
    take_basis lots c f
      = .ok ((lots.filter c).map (fun x => { x with price := x.price * f }),
             lots.map (fun x => if c x then { x with price := x.price - x.price * f } else x)) := by
  unfold take_basis
  rw [if_pos ⟨h0, h1⟩, take_basis_go_eq]

theorem take_basis_mem_opentx (lots : List Lot) (c : Lot → Bool) (f : ℚ)
    (t l : List Lot) (h : take_basis lots c f = .ok (t, l)) :
    ∀ x ∈ t, x.opentransaction ∈ lots.map (·.opentransaction) := by
  unfold take_basis at h
  by_cases hf : 0 ≤ f ∧ f ≤ 1
  · rw [if_pos hf, take_basis_go_eq] at h
    cases h
    intro x hx
    simp only [List.mem_map] at hx
    obtain ⟨y, hy, hxy⟩ := hx
    subst hxy
    have hy2 : y ∈ lots := List.mem_of_mem_filter hy
    exact List.mem_map.mpr ⟨y, hy2, rfl⟩
  · rw [if_neg hf] at h
    cases h

theorem sortPosition_map_mem (s : SortType) (position : List Lot) (x : Lot)
    (h : x ∈ sortPosition s position) : x ∈ position :=
  ((List.mergeSort_perm position (lotLe s)).mem_iff).mp h

/-- The destination pocket written by `_mutate_portfolio`. -/
def mutPocket (transaction : TransactionType) : Pocket :=
  (transaction.fiaccount, transaction.security)

/-- Portfolio state after the in-place sort of `_mutate_portfolio` (the sort
writes through the stored list only when the pocket key exists). -/
def mutSorted (portfolio : Portfolio) (transaction : TransactionType)
    (sort : Option SortType) : Portfolio :=
  if (List.lookup (mutPocket transaction) portfolio).isSome then
    Portfolio.set portfolio (mutPocket transaction)
      (sortPosition (sort.getD .fifo) (Portfolio.get portfolio (mutPocket transaction)))
  else portfolio

theorem mutSorted_get_ne (portfolio : Portfolio) (transaction : TransactionType)
    (sort : Option SortType) (k : Pocket) (hk : k ≠ mutPocket transaction) :
    Portfolio.get (mutSorted portfolio transaction sort) k
      = Portfolio.get portfolio k := by
  unfold mutSorted
  by_cases h : (List.lookup (mutPocket transaction) portfolio).isSome
  · rw [if_pos h, Portfolio.get_set_ne _ _ _ _ hk]
  · rw [if_neg h]

theorem mutate_portfolio_eq (portfolio : Portfolio) (transaction : TransactionType)
    (units cash : ℚ) (currency : Currency) (opentransaction : Option TransactionType)
    (sort : Option SortType) (h : units ≠ 0) (t l : List Lot)
    (hpart : part_units
        (sortPosition (sort.getD .fifo) (Portfolio.get portfolio (mutPocket transaction)))
        (closable units transaction.datetime) (some (-units)) = .ok (t, l)) :
    mutate_portfolio portfolio transaction units cash currency opentransaction sort
      = (Portfolio.set (mutSorted portfolio transaction sort) (mutPocket transaction)
          (if units + (t.map (·.units)).sum ≠ 0 then
              l ++ [{ opentransaction := opentransaction.getD transaction,
                      createtransaction := transaction,
                      units := units + (t.map (·.units)).sum,
                      price := |cash / units|, currency := currency }] else l),
         .ok (t.map (fun lot =>
           { lot := lot, transaction := transaction, price := |cash / units| }))) := by
  unfold mutPocket at hpart
  unfold mutate_portfolio mutSorted mutPocket
  rw [if_neg h]
  simp only [hpart]

theorem mutate_portfolio_error (portfolio : Portfolio) (transaction : TransactionType)
    (units cash : ℚ) (currency : Currency) (opentransaction : Option TransactionType)
    (sort : Option SortType) (p2 : Portfolio) (e : Err)
    (h : mutate_portfolio portfolio transaction units cash currency opentransaction sort
      = (p2, .error e)) : e = .arithmeticError ∧ units = 0 := by
  by_cases hu : units = 0
  · refine ⟨?_, hu⟩
    unfold mutate_portfolio at h
    rw [if_pos hu] at h
    cases h
    rfl
  · exfalso
    obtain ⟨t, l, hpart⟩ := take_lots_closable_ok
      (sortPosition (sort.getD .fifo) (Portfolio.get portfolio (mutPocket transaction)))
      units transaction.datetime (-units)
      (by nlinarith [mul_self_nonneg units])
    rw [mutate_portfolio_eq portfolio transaction units cash currency opentransaction
      sort hu t l hpart] at h
    cases h

theorem mutate_portfolio_ok_exists (portfolio : Portfolio)
    (transaction : TransactionType) (units cash : ℚ) (currency : Currency)
    (opentransaction : Option TransactionType) (sort : Option SortType)
    (h : units ≠ 0) :
    ∃ p2 g, mutate_portfolio portfolio transaction units cash currency
      opentransaction sort = (p2, .ok g) := by
  obtain ⟨t, l, hpart⟩ := take_lots_closable_ok
    (sortPosition (sort.getD .fifo) (Portfolio.get portfolio (mutPocket transaction)))
    units transaction.datetime (-units)
    (by nlinarith [mul_self_nonneg units])
  exact ⟨_, _, mutate_portfolio_eq portfolio transaction units cash currency
    opentransaction sort h t l hpart⟩

theorem mutate_portfolio_fst_frame (portfolio : Portfolio)
    (transaction : TransactionType) (units cash : ℚ) (currency : Currency)
    (opentransaction : Option TransactionType) (sort : Option SortType)
    (k : Pocket) (hk : k ≠ mutPocket transaction) :
    Portfolio.get (mutate_portfolio portfolio transaction units cash currency
      opentransaction sort).1 k = Portfolio.get portfolio k := by
  by_cases hu : units = 0
  · unfold mutate_portfolio
    rw [if_pos hu]
    exact mutSorted_get_ne portfolio transaction sort k hk
  · obtain ⟨t, l, hpart⟩ := take_lots_closable_ok
      (sortPosition (sort.getD .fifo) (Portfolio.get portfolio (mutPocket transaction)))
      units transaction.datetime (-units)
      (by nlinarith [mul_self_nonneg units])
    rw [mutate_portfolio_eq portfolio transaction units cash currency opentransaction
      sort hu t l hpart]
    simp only
    rw [Portfolio.get_set_ne _ _ _ _ hk]
    exact mutSorted_get_ne portfolio transaction sort k hk

theorem mutSorted_get_self (portfolio : Portfolio) (transaction : TransactionType)
    (sort : Option SortType) :
    Portfolio.get (mutSorted portfolio transaction sort) (mutPocket transaction)
      = sortPosition (sort.getD .fifo) (Portfolio.get portfolio (mutPocket transaction))
    ∨ (Portfolio.get (mutSorted portfolio transaction sort) (mutPocket transaction)
        = Portfolio.get portfolio (mutPocket transaction)
       ∧ Portfolio.get portfolio (mutPocket transaction) = []) := by
  unfold mutSorted
  by_cases h : (List.lookup (mutPocket transaction) portfolio).isSome
  · rw [if_pos h]
    exact Or.inl (Portfolio.get_set_self _ _ _)
  · rw [if_neg h]
    refine Or.inr ⟨rfl, ?_⟩
    unfold Portfolio.get
    cases hl : List.lookup (mutPocket transaction) portfolio with
    | some v => rw [hl] at h; simp at h
    | none => simp

theorem mutate_portfolio_opentx (portfolio : Portfolio)
    (transaction : TransactionType) (units cash : ℚ) (currency : Currency)
    (opentransaction : Option TransactionType) (sort : Option SortType)
    (p2 : Portfolio) (g : List Gain) (Q : TransactionType → Prop)
    (h : mutate_portfolio portfolio transaction units cash currency
      opentransaction sort = (p2, .ok g))
    (hpos : ∀ x ∈ Portfolio.get portfolio (mutPocket transaction), Q x.opentransaction)
    (hnew : Q (opentransaction.getD transaction)) :
    ∀ x ∈ Portfolio.get p2 (mutPocket transaction), Q x.opentransaction := by
  by_cases hu : units = 0
  · exfalso
    unfold mutate_portfolio at h
    rw [if_pos hu] at h
    cases h
  · obtain ⟨t, l, hpart⟩ := take_lots_closable_ok
      (sortPosition (sort.getD .fifo) (Portfolio.get portfolio (mutPocket transaction)))
      units transaction.datetime (-units)
      (by nlinarith [mul_self_nonneg units])
    rw [mutate_portfolio_eq portfolio transaction units cash currency opentransaction
      sort hu t l hpart] at h
    have hp2 : p2 = Portfolio.set (mutSorted portfolio transaction sort)
        (mutPocket transaction)
        (if units + (t.map (·.units)).sum ≠ 0 then
            l ++ [{ opentransaction := opentransaction.getD transaction,
                    createtransaction := transaction,
                    units := units + (t.map (·.units)).sum,
                    price := |cash / units|, currency := currency }] else l) :=
      (congrArg Prod.fst h).symm
    subst hp2
    rw [Portfolio.get_set_self]
    have hmeml : ∀ x ∈ l, Q x.opentransaction := by
      intro x hx
      have hmem := (take_lots_mem_opentx _ _ _ _ _ hpart).2 x hx
      simp only [List.mem_map] at hmem
      obtain ⟨y, hy, hxy⟩ := hmem
      have hy2 : y ∈ Portfolio.get portfolio (mutPocket transaction) :=
        sortPosition_map_mem _ _ y hy
      rw [← hxy]
      exact hpos y hy2
    intro x hx
    by_cases hz : units + (t.map (·.units)).sum ≠ 0
    · rw [if_pos hz] at hx
      rcases List.mem_append.mp hx with hx | hx
      · exact hmeml x hx
      · simp only [List.mem_singleton] at hx
        subst hx
        exact hnew
    · rw [if_neg hz] at hx
      exact hmeml x hx

theorem book_lots_error (portfolio : Portfolio) (transaction : TransactionType)
    (f : Lot → ℚ × ℚ × Currency × Option TransactionType) (lots : List Lot)
    (sort : Option SortType) (p2 : Portfolio) (e : Err)
    (h : book_lots portfolio transaction f lots sort = (p2, .error e)) :
    e = .arithmeticError := by
  induction lots generalizing portfolio with
  | nil => simp only [book_lots] at h; cases h
  | cons lot rest ih =>
    simp only [book_lots] at h
    rcases hm : mutate_portfolio portfolio transaction (f lot).1 (f lot).2.1
        (f lot).2.2.1 (f lot).2.2.2 sort with ⟨p1, r1⟩
    rw [hm] at h
    cases r1 with
    | error e1 =>
      simp only at h
      cases h
      exact (mutate_portfolio_error _ _ _ _ _ _ _ _ _ hm).1
    | ok g1 =>
      simp only at h
      rcases hb : book_lots p1 transaction f rest sort with ⟨p3, r3⟩
      rw [hb] at h
      cases r3 with
      | error e3 =>
        simp only at h
        cases h
        exact ih p1 hb
      | ok g3 => simp only at h; cases h

theorem book_lots_ok_exists (portfolio : Portfolio) (transaction : TransactionType)
    (f : Lot → ℚ × ℚ × Currency × Option TransactionType) (lots : List Lot)
    (sort : Option SortType) (h : ∀ lot ∈ lots, (f lot).1 ≠ 0) :
    ∃ p2 g, book_lots portfolio transaction f lots sort = (p2, .ok g) := by
  induction lots generalizing portfolio with
  | nil => exact ⟨portfolio, [], by simp [book_lots]⟩
  | cons lot rest ih =>
    obtain ⟨p1, g1, hm⟩ := mutate_portfolio_ok_exists portfolio transaction
      (f lot).1 (f lot).2.1 (f lot).2.2.1 (f lot).2.2.2 sort
      (h lot (List.mem_cons_self lot rest))
    obtain ⟨p3, g3, hb⟩ := ih p1 (fun x hx => h x (List.mem_cons_of_mem lot hx))
    exact ⟨p3, g1 ++ g3, by simp [book_lots, hm, hb]⟩

theorem book_lots_fst_frame (portfolio : Portfolio) (transaction : TransactionType)
    (f : Lot → ℚ × ℚ × Currency × Option TransactionType) (lots : List Lot)
    (sort : Option SortType) (k : Pocket) (hk : k ≠ mutPocket transaction) :
    Portfolio.get (book_lots portfolio transaction f lots sort).1 k
      = Portfolio.get portfolio k := by
  induction lots generalizing portfolio with
  | nil => simp [book_lots]
  | cons lot rest ih =>
    simp only [book_lots]
    rcases hm : mutate_portfolio portfolio transaction (f lot).1 (f lot).2.1
        (f lot).2.2.1 (f lot).2.2.2 sort with ⟨p1, r1⟩
    have hframe : Portfolio.get p1 k = Portfolio.get portfolio k := by
      have := mutate_portfolio_fst_frame portfolio transaction (f lot).1 (f lot).2.1
        (f lot).2.2.1 (f lot).2.2.2 sort k hk
      rw [hm] at this
      exact this
    cases r1 with
    | error e1 => simpa using hframe
    | ok g1 =>
      simp only
      rcases hb : book_lots p1 transaction f rest sort with ⟨p3, r3⟩
      have hf3 : Portfolio.get p3 k = Portfolio.get p1 k := by
        have := ih p1
        rw [hb] at this
        exact this
      cases r3 with
      | error e3 => simpa using hf3.trans hframe
      | ok g3 => simpa using hf3.trans hframe

theorem book_lots_opentx (portfolio : Portfolio) (transaction : TransactionType)
    (f : Lot → ℚ × ℚ × Currency × Option TransactionType) (lots : List Lot)
    (sort : Option SortType) (p2 : Portfolio) (g : List Gain)
    (Q : TransactionType → Prop)
    (h : book_lots portfolio transaction f lots sort = (p2, .ok g))
    (hpos : ∀ x ∈ Portfolio.get portfolio (mutPocket transaction), Q x.opentransaction)
    (hlots : ∀ lot ∈ lots, Q (((f lot).2.2.2).getD transaction)) :
    ∀ x ∈ Portfolio.get p2 (mutPocket transaction), Q x.opentransaction := by
  induction lots generalizing portfolio g with
  | nil =>
    simp only [book_lots] at h
    cases h
    exact hpos
  | cons lot rest ih =>
    simp only [book_lots] at h
    rcases hm : mutate_portfolio portfolio transaction (f lot).1 (f lot).2.1
        (f lot).2.2.1 (f lot).2.2.2 sort with ⟨p1, r1⟩
    rw [hm] at h
    cases r1 with
    | error e1 => simp only at h; cases h
    | ok g1 =>
      simp only at h
      rcases hb : book_lots p1 transaction f rest sort with ⟨p3, r3⟩
      rw [hb] at h
      cases r3 with
      | error e3 => simp only at h; cases h
      | ok g3 =>
        simp only at h
        have hp : p3 = p2 := congrArg Prod.fst h
        have hq1 : ∀ x ∈ Portfolio.get p1 (mutPocket transaction), Q x.opentransaction :=
          mutate_portfolio_opentx portfolio transaction (f lot).1 (f lot).2.1
            (f lot).2.2.1 (f lot).2.2.2 sort p1 g1 Q hm hpos
            (hlots lot (List.mem_cons_self lot rest))
        rw [hp] at hb
        exact ih p1 g3 hb hq1 (fun x hx => hlots x (List.mem_cons_of_mem lot hx))

theorem take_basis_go_sum (lots : List Lot) (c : Lot → Bool) (f : ℚ) :
    ((take_basis_go lots c f).1.map (fun x => x.units * x.price)).sum
      + ((take_basis_go lots c f).2.map (fun x => x.units * x.price)).sum
      = (lots.map (fun x => x.units * x.price)).sum := by
  induction lots with
  | nil => simp [take_basis_go]
  | cons lot rest ih =>
    rcases hre : take_basis_go rest c f with ⟨t, l⟩
    rw [hre] at ih
    simp only at ih
    have key : lot.units * (lot.price * f)
        + lot.units * (lot.price - lot.price * f) = lot.units * lot.price := by
      ring
    cases hcb : c lot
    · simp [take_basis_go, hre, hcb]
      linarith
    · simp [take_basis_go, hre, hcb]
      linarith

/-- C4: when they return without raising, `part_units` preserves the total
units across (taken, remaining), and `part_basis` splits each matching lot
price into taken and remaining parts with units unchanged (non-matching
lots pass through), so the total units * price is preserved. -/
theorem c4_partition_conservation :
    (∀ (position : List Lot) (predicate : Lot → Bool) (max_units : Option ℚ)
        (t l : List Lot), part_units position predicate max_units = .ok (t, l) →
      (t.map (·.units)).sum + (l.map (·.units)).sum = (position.map (·.units)).sum)
    ∧ (∀ (position : List Lot) (predicate : Lot → Bool) (fraction : ℚ)
        (t l : List Lot), part_basis position predicate fraction = .ok (t, l) →
      t = (position.filter predicate).map
            (fun x => { x with price := x.price * fraction })
      ∧ l = position.map (fun x =>
            if predicate x then { x with price := x.price - x.price * fraction } else x)
      ∧ (t.map (fun x => x.units * x.price)).sum
          + (l.map (fun x => x.units * x.price)).sum
          = (position.map (fun x => x.units * x.price)).sum) := by
  constructor
  · intro position predicate max_units t l h
    exact take_lots_sum_units position predicate max_units t l h
  · intro position predicate fraction t l h
    have h2 : take_basis position predicate fraction = .ok (t, l) := h
    unfold take_basis at h2
    by_cases hf : 0 ≤ fraction ∧ fraction ≤ 1
    · rw [if_pos hf] at h2
      have hgo : take_basis_go position predicate fraction = (t, l) := by
        injection h2
      have hchar := take_basis_go_eq position predicate fraction
      rw [hgo] at hchar
      have ht : t = (position.filter predicate).map
          (fun x => { x with price := x.price * fraction }) :=
        congrArg Prod.fst hchar
      have hl : l = position.map (fun x =>
          if predicate x then { x with price := x.price - x.price * fraction } else x) :=
        congrArg Prod.snd hchar
      refine ⟨ht, hl, ?_⟩
      have hsum := take_basis_go_sum position predicate fraction
      rw [hgo] at hsum
      exact hsum
    · rw [if_neg hf] at h2
      cases h2

set_option maxRecDepth 400000 in
/-- C4 witness: partitioning a single lot of 100 units with a cap of 40
takes 40 and leaves 60; splitting the basis of the same lot at fraction 1/4
takes a quarter of the price per lot and preserves the basis total. -/
theorem c4_witness :
    (([{ c2_lot1 with units := 40 }].map (·.units)).sum
      + ([{ c2_lot1 with units := 60 }].map (·.units)).sum
      = ([c2_lot1].map (·.units)).sum)
    ∧ ([{ c2_lot1 with price := 10 * (1 / 4) }]
        = ([c2_lot1].filter (fun _ => true)).map
            (fun x => { x with price := x.price * (1 / 4) })
      ∧ [{ c2_lot1 with price := 10 - 10 * (1 / 4) }]
        = [c2_lot1].map (fun x =>
            if (fun _ => true) x then { x with price := x.price - x.price * (1 / 4) } else x)
      ∧ ([{ c2_lot1 with price := 10 * (1 / 4) }].map (fun x => x.units * x.price)).sum
          + ([{ c2_lot1 with price := 10 - 10 * (1 / 4) }].map (fun x => x.units * x.price)).sum
          = ([c2_lot1].map (fun x => x.units * x.price)).sum) :=
  ⟨c4_partition_conservation.1 [c2_lot1] (fun _ => true) (some 40)
      [{ c2_lot1 with units := 40 }] [{ c2_lot1 with units := 60 }]
      (by with_unfolding_all decide),
   c4_partition_conservation.2 [c2_lot1] (fun _ => true) (1 / 4)
      [{ c2_lot1 with price := 10 * (1 / 4) }]
      [{ c2_lot1 with price := 10 - 10 * (1 / 4) }]
      (by with_unfolding_all decide)⟩

/-- C5: `part_units` raises Inconsistent as soon as the walk reaches a
predicate-matching lot whose units have sign opposite to the nonzero
remaining cap (the recursion argument (suffix, cap) is exactly the loop
state, so the head form quantifies over every reachable state); with no cap,
every predicate-matching lot is taken in full and no error is raised. -/
theorem c5_part_units_cap_behavior :
    (∀ (predicate : Lot → Bool) (u : ℚ) (lot : Lot) (rest : List Lot),
        predicate lot = true → u ≠ 0 → lot.units * u < 0 →
        part_units (lot :: rest) predicate (some u) = .error .inconsistent)
    ∧ (∀ (position : List Lot) (predicate : Lot → Bool),
        part_units position predicate none
          = .ok (position.filter predicate, position.filter (fun x => ! predicate x))) :=
  ⟨fun c u lot rest hc hu hs => take_lots_opposite_sign lot rest c u hc hu hs,
   fun position c => take_lots_none_eq position c⟩

set_option maxRecDepth 400000 in
/-- C5 witness: a long lot against a negative cap raises Inconsistent, and
with no cap the matching lot is taken in full. -/
theorem c5_witness :
    part_units [c2_lot1] (fun _ => true) (some (-5)) = .error .inconsistent
    ∧ part_units [c2_lot1] (fun _ => true) none
        = .ok ([c2_lot1].filter (fun _ => true), [c2_lot1].filter (fun x => ! (fun _ => true) x)) :=
  ⟨c5_part_units_cap_behavior.1 (fun _ => true) (-5) c2_lot1 [] rfl
      (by norm_num) (by with_unfolding_all decide),
   c5_part_units_cap_behavior.2 [c2_lot1] (fun _ => true)⟩

/-- C3: for a ReturnOfCapital whose affected (long, open) lot list is
nonempty, with perShareRoc = cash / sum of affected units, every affected
lot with price at least perShareRoc is replaced by the lot with price
reduced by perShareRoc and emits no Gain, while every affected lot with
price strictly below perShareRoc is replaced by a lot of price zero and
emits a Gain whose price is the full perShareRoc; unaffected lots pass
through after the affected block. -/
theorem c3_returnofcapital_basis (transaction : ReturnOfCapital)
    (portfolio : Portfolio)
    (h : (Portfolio.get portfolio (transaction.fiaccount, transaction.security)).filter
          (longAsOf transaction.datetime) ≠ []) :
    book_returnofcapital transaction portfolio
      = (Portfolio.set portfolio (transaction.fiaccount, transaction.security)
          ((((Portfolio.get portfolio (transaction.fiaccount, transaction.security)).filter
                (longAsOf transaction.datetime)).map (fun lot =>
              if transaction.cash
                  / ((((Portfolio.get portfolio
                        (transaction.fiaccount, transaction.security)).filter
                        (longAsOf transaction.datetime)).map (·.units)).sum) ≤ lot.price
              then { lot with price := lot.price - transaction.cash
                  / ((((Portfolio.get portfolio
                        (transaction.fiaccount, transaction.security)).filter
                        (longAsOf transaction.datetime)).map (·.units)).sum) }
              else { lot with price := 0 }))
            ++ (Portfolio.get portfolio (transaction.fiaccount, transaction.security)).filter
                (fun lot => ! longAsOf transaction.datetime lot)),
         .ok (((Portfolio.get portfolio (transaction.fiaccount, transaction.security)).filter
              (longAsOf transaction.datetime)).filterMap (fun lot =>
            if lot.price < transaction.cash
                / ((((Portfolio.get portfolio
                      (transaction.fiaccount, transaction.security)).filter
                      (longAsOf transaction.datetime)).map (·.units)).sum)
            then some { lot := lot, transaction := .returnofcapital transaction,
                        price := transaction.cash
                          / ((((Portfolio.get portfolio
                                (transaction.fiaccount, transaction.security)).filter
                                (longAsOf transaction.datetime)).map (·.units)).sum) }
            else none))) := by
  have hall : ∀ q ∈ (((Portfolio.get portfolio
      (transaction.fiaccount, transaction.security)).filter
      (longAsOf transaction.datetime)).map (·.units)), 0 < q := by
    intro q hq
    simp only [List.mem_map] at hq
    obtain ⟨x, hx, hxq⟩ := hq
    have hx2 := List.of_mem_filter hx
    simp only [longAsOf, Bool.and_eq_true, decide_eq_true_eq] at hx2
    rw [← hxq]
    exact hx2.2
  have hne : (((Portfolio.get portfolio
      (transaction.fiaccount, transaction.security)).filter
      (longAsOf transaction.datetime)).map (·.units)) ≠ [] := by
    simpa using h
  have hsum : 0 < (((Portfolio.get portfolio
      (transaction.fiaccount, transaction.security)).filter
      (longAsOf transaction.datetime)).map (·.units)).sum :=
    List.sum_pos _ hall hne
  unfold book_returnofcapital
  dsimp only
  rw [if_neg h, if_neg (ne_of_gt hsum)]
  congr 1
  · congr 1
    rw [List.map_map]
    congr 1
    refine List.map_congr_left ?_
    intro lot hlot
    simp only [Function.comp_apply]
    unfold reduceBasis
    by_cases hlt : lot.price - transaction.cash
        / ((((Portfolio.get portfolio
              (transaction.fiaccount, transaction.security)).filter
              (longAsOf transaction.datetime)).map (·.units)).sum) < 0
    · rw [if_pos hlt, if_neg (by
        intro hle
        have := sub_nonneg.mpr hle
        linarith)]
    · rw [if_neg hlt, if_pos (by
        have := not_lt.mp hlt
        linarith [sub_nonneg.mp this])]
  · rw [List.filterMap_map]
    refine congrArg Except.ok (List.filterMap_congr ?_)
    intro lot hlot
    simp only [Function.comp_apply]
    unfold reduceBasis
    by_cases hlt : lot.price - transaction.cash
        / ((((Portfolio.get portfolio
              (transaction.fiaccount, transaction.security)).filter
              (longAsOf transaction.datetime)).map (·.units)).sum) < 0
    · rw [if_pos hlt, if_pos (by linarith)]
    · rw [if_neg hlt, if_neg (by
        intro hcon
        have : lot.price - transaction.cash
            / ((((Portfolio.get portfolio
                  (transaction.fiaccount, transaction.security)).filter
                  (longAsOf transaction.datetime)).map (·.units)).sum) < 0 := by linarith
        exact hlt this)]

/-- C3 witness: the spec scenario — a long lot of 100 units at price 10
receiving a 1200 return of capital (perShareRoc = 12) becomes 100 units at
price 0 and emits one Gain of price 12. -/
theorem c3_witness :
    book_returnofcapital
        { uniqueid := "r1", datetime := 4, dtsettle := none, fiaccount := "A",
          security := "S", cash := 1200, currency := "USD" }
        [(c2_pocket, [c2_lot1])]
      = (Portfolio.set [(c2_pocket, [c2_lot1])] ("A", "S")
          ((([c2_lot1].filter (longAsOf 4)).map (fun lot =>
              if (1200 : ℚ) / (([c2_lot1].filter (longAsOf 4)).map (·.units)).sum ≤ lot.price
              then { lot with price := lot.price
                  - 1200 / (([c2_lot1].filter (longAsOf 4)).map (·.units)).sum }
              else { lot with price := 0 }))
            ++ [c2_lot1].filter (fun lot => ! longAsOf 4 lot)),
         .ok (([c2_lot1].filter (longAsOf 4)).filterMap (fun lot =>
            if lot.price < 1200 / (([c2_lot1].filter (longAsOf 4)).map (·.units)).sum
            then some { lot := lot,
                        transaction := .returnofcapital
                          { uniqueid := "r1", datetime := 4, dtsettle := none,
                            fiaccount := "A", security := "S", cash := 1200,
                            currency := "USD" },
                        price := 1200 / (([c2_lot1].filter (longAsOf 4)).map (·.units)).sum }
            else none))) := by
  have h := c3_returnofcapital_basis
    { uniqueid := "r1", datetime := 4, dtsettle := none, fiaccount := "A",
      security := "S", cash := 1200, currency := "USD" }
    [(c2_pocket, [c2_lot1])] (by with_unfolding_all decide)
  exact h

theorem ok_ne_error {α β : Type} (x : β) (e : α) :
    (Except.ok x : Except α β) ≠ .error e := by
  simp

/-- C6 amended: when the split ratio is computable (nonzero denominator),
`book_split` raises Inconsistent when the position is empty, but when the
position is nonempty and no lot matches `openAsOf` it raises ValueError
(unpacking the empty `zip`); in both cases the portfolio is returned
unchanged. -/
theorem c6_split_raise_amended (transaction : Split) (portfolio : Portfolio)
    (hden : transaction.denominator ≠ 0) :
    (Portfolio.get portfolio (transaction.fiaccount, transaction.security) = [] →
      book_split transaction portfolio = (portfolio, .error .inconsistent))
    ∧ (Portfolio.get portfolio (transaction.fiaccount, transaction.security) ≠ [] →
       (Portfolio.get portfolio (transaction.fiaccount, transaction.security)).filter
         (openAsOf transaction.datetime) = [] →
       book_split transaction portfolio = (portfolio, .error .valueError)) := by
  constructor
  · intro hempty
    unfold book_split
    dsimp only
    rw [if_neg hden, if_pos hempty]
  · intro hne haff
    unfold book_split
    dsimp only
    rw [if_neg hden, if_neg hne, if_pos haff]

set_option maxRecDepth 400000 in
/-- C6 amended witness: the empty-position and the no-matching-lot cases at
concrete inputs. -/
theorem c6_witness :
    book_split c6_split [] = ([], .error .inconsistent)
    ∧ book_split c6_split [(c2_pocket, [c2_lot1])]
        = ([(c2_pocket, [c2_lot1])], .error .valueError) :=
  ⟨(c6_split_raise_amended c6_split [] (by with_unfolding_all decide)).1
      (by with_unfolding_all decide),
   (c6_split_raise_amended c6_split [(c2_pocket, [c2_lot1])]
      (by with_unfolding_all decide)).2
      (by with_unfolding_all decide) (by with_unfolding_all decide)⟩

theorem book_trade_error (transaction : Trade) (portfolio : Portfolio)
    (sort : Option SortType) (p2 : Portfolio) (e : Err)
    (h : book_trade transaction portfolio sort = (p2, .error e))
    (he : e = .valueError ∨ e = .inconsistent) : p2 = portfolio := by
  unfold book_trade at h
  by_cases hu : transaction.units = 0
  · rw [if_pos hu] at h
    cases h
    rfl
  · rw [if_neg hu] at h
    have harith := (mutate_portfolio_error _ _ _ _ _ _ _ _ _ h).1
    rcases he with he | he <;> subst he <;> cases harith

theorem book_returnofcapital_error (transaction : ReturnOfCapital)
    (portfolio : Portfolio) (p2 : Portfolio) (e : Err)
    (h : book_returnofcapital transaction portfolio = (p2, .error e)) :
    p2 = portfolio := by
  unfold book_returnofcapital at h
  dsimp only at h
  by_cases h1 : (Portfolio.get portfolio
      (transaction.fiaccount, transaction.security)).filter
      (longAsOf transaction.datetime) = []
  · rw [if_pos h1] at h
    cases h
    rfl
  · rw [if_neg h1] at h
    by_cases h2 : (((Portfolio.get portfolio
        (transaction.fiaccount, transaction.security)).filter
        (longAsOf transaction.datetime)).map (·.units)).sum = 0
    · rw [if_pos h2] at h
      cases h
      rfl
    · rw [if_neg h2] at h
      exact absurd (congrArg Prod.snd h) (ok_ne_error _ _)

theorem book_split_error (transaction : Split) (portfolio : Portfolio)
    (p2 : Portfolio) (e : Err)
    (h : book_split transaction portfolio = (p2, .error e)) : p2 = portfolio := by
  unfold book_split at h
  dsimp only at h
  by_cases hd : transaction.denominator = 0
  · rw [if_pos hd] at h; cases h; rfl
  · rw [if_neg hd] at h
    by_cases h1 : Portfolio.get portfolio
        (transaction.fiaccount, transaction.security) = []
    · rw [if_pos h1] at h; cases h; rfl
    · rw [if_neg h1] at h
      by_cases h2 : (Portfolio.get portfolio
          (transaction.fiaccount, transaction.security)).filter
          (openAsOf transaction.datetime) = []
      · rw [if_pos h2] at h; cases h; rfl
      · rw [if_neg h2] at h
        by_cases h3 : transaction.numerator / transaction.denominator = 0
        · rw [if_pos h3] at h; cases h; rfl
        · rw [if_neg h3] at h
          by_cases h4 : UNITS_TOLERANCE
              < |((((Portfolio.get portfolio
                    (transaction.fiaccount, transaction.security)).filter
                    (openAsOf transaction.datetime)).map (fun lot =>
                  { lot with units := lot.units * (transaction.numerator / transaction.denominator),
                             price := lot.price / (transaction.numerator / transaction.denominator) })).map
                  (·.units)).sum
                - (((Portfolio.get portfolio
                    (transaction.fiaccount, transaction.security)).filter
                    (openAsOf transaction.datetime)).map (·.units)).sum
                - transaction.units|
          · rw [if_pos h4] at h; cases h; rfl
          · rw [if_neg h4] at h
            exact absurd (congrArg Prod.snd h) (ok_ne_error _ _)

theorem book_transfer_error (transaction : Transfer) (portfolio : Portfolio)
    (sort : Option SortType) (p2 : Portfolio) (e : Err)
    (h : book_transfer transaction portfolio sort = (p2, .error e))
    (he : e = .valueError ∨ e = .inconsistent) :
    p2 = portfolio
    ∨ p2 = (Portfolio.getItem portfolio
        (transaction.fromfiaccount, transaction.fromsecurity)).1 := by
  unfold book_transfer at h
  dsimp only at h
  by_cases h1 : 0 ≤ transaction.units * transaction.fromunits
  · rw [if_pos h1] at h
    cases h
    exact Or.inl rfl
  · rw [if_neg h1] at h
    cases hp : part_units
        (Portfolio.getItem portfolio
          (transaction.fromfiaccount, transaction.fromsecurity)).2
        (openAsOf transaction.datetime) (some (-transaction.fromunits)) with
    | error e2 =>
      rw [hp] at h
      dsimp only at h
      cases h
      exact Or.inr rfl
    | ok pair =>
      rw [hp] at h
      obtain ⟨lotsRemoved, sourcePosition1⟩ := pair
      dsimp only at h
      by_cases h2 : UNITS_TOLERANCE
          < |(lotsRemoved.map (·.units)).sum + transaction.fromunits|
      · rw [if_pos h2] at h
        cases h
        exact Or.inr rfl
      · rw [if_neg h2] at h
        have harith := book_lots_error _ _ _ _ _ _ _ h
        rcases he with he | he <;> subst he <;> cases harith

theorem book_spinoff_error (transaction : Spinoff) (portfolio : Portfolio)
    (sort : Option SortType) (p2 : Portfolio) (e : Err)
    (h : book_spinoff transaction portfolio sort = (p2, .error e))
    (he : e = .valueError ∨ e = .inconsistent) :
    p2 = portfolio
    ∨ p2 = Portfolio.set
        (Portfolio.getItem portfolio (transaction.fiaccount, transaction.fromsecurity)).1
        (transaction.fiaccount, transaction.fromsecurity)
        (sortPosition (sort.getD .fifo)
          (Portfolio.getItem portfolio
            (transaction.fiaccount, transaction.fromsecurity)).2) := by
  unfold book_spinoff at h
  dsimp only at h
  by_cases h1 : transaction.numerator ≤ 0 ∨ transaction.denominator ≤ 0
  · rw [if_pos h1] at h
    cases h
    exact Or.inl rfl
  · rw [if_neg h1] at h
    rcases hsp : transaction.securityprice with _ | sp <;>
      rcases hfsp : transaction.fromsecurityprice with _ | fsp <;>
      rw [hsp, hfsp] at h <;> dsimp only at h
    · cases hpb : part_basis
          (sortPosition (sort.getD .fifo)
            (Portfolio.getItem portfolio
              (transaction.fiaccount, transaction.fromsecurity)).2)
          (openAsOf transaction.datetime) 0 with
      | error e2 =>
        rw [hpb] at h
        dsimp only at h
        cases h
        exact Or.inr rfl
      | ok pair =>
        rw [hpb] at h
        obtain ⟨lotsRemoved, sourcePosition1⟩ := pair
        dsimp only at h
        by_cases h2 : UNITS_TOLERANCE
            < |(lotsRemoved.map (·.units)).sum
                * (transaction.numerator / transaction.denominator)
                - transaction.units|
        · rw [if_pos h2] at h
          cases h
          exact Or.inr rfl
        · rw [if_neg h2] at h
          have harith := book_lots_error _ _ _ _ _ _ _ h
          rcases he with he | he <;> subst he <;> cases harith
    · cases hpb : part_basis
          (sortPosition (sort.getD .fifo)
            (Portfolio.getItem portfolio
              (transaction.fiaccount, transaction.fromsecurity)).2)
          (openAsOf transaction.datetime) 0 with
      | error e2 =>
        rw [hpb] at h
        dsimp only at h
        cases h
        exact Or.inr rfl
      | ok pair =>
        rw [hpb] at h
        obtain ⟨lotsRemoved, sourcePosition1⟩ := pair
        dsimp only at h
        by_cases h2 : UNITS_TOLERANCE
            < |(lotsRemoved.map (·.units)).sum
                * (transaction.numerator / transaction.denominator)
                - transaction.units|
        · rw [if_pos h2] at h
          cases h
          exact Or.inr rfl
        · rw [if_neg h2] at h
          have harith := book_lots_error _ _ _ _ _ _ _ h
          rcases he with he | he <;> subst he <;> cases harith
    · cases hpb : part_basis
          (sortPosition (sort.getD .fifo)
            (Portfolio.getItem portfolio
              (transaction.fiaccount, transaction.fromsecurity)).2)
          (openAsOf transaction.datetime) 0 with
      | error e2 =>
        rw [hpb] at h
        dsimp only at h
        cases h
        exact Or.inr rfl
      | ok pair =>
        rw [hpb] at h
        obtain ⟨lotsRemoved, sourcePosition1⟩ := pair
        dsimp only at h
        by_cases h2 : UNITS_TOLERANCE
            < |(lotsRemoved.map (·.units)).sum
                * (transaction.numerator / transaction.denominator)
                - transaction.units|
        · rw [if_pos h2] at h
          cases h
          exact Or.inr rfl
        · rw [if_neg h2] at h
          have harith := book_lots_error _ _ _ _ _ _ _ h
          rcases he with he | he <;> subst he <;> cases harith
    · by_cases hz : sp * transaction.units
          + fsp * transaction.units / (transaction.numerator / transaction.denominator) = 0
      · rw [if_pos hz] at h
        dsimp only at h
        have harith : Err.arithmeticError = e := by
          have h2 := congrArg Prod.snd h
          injection h2
        rcases he with he | he <;> subst he <;> cases harith
      · rw [if_neg hz] at h
        dsimp only at h
        cases hpb : part_basis
            (sortPosition (sort.getD .fifo)
              (Portfolio.getItem portfolio
                (transaction.fiaccount, transaction.fromsecurity)).2)
            (openAsOf transaction.datetime)
            (sp * transaction.units
              / (sp * transaction.units
                + fsp * transaction.units / (transaction.numerator / transaction.denominator))) with
        | error e2 =>
          rw [hpb] at h
          dsimp only at h
          cases h
          exact Or.inr rfl
        | ok pair =>
          rw [hpb] at h
          obtain ⟨lotsRemoved, sourcePosition1⟩ := pair
          dsimp only at h
          by_cases h2 : UNITS_TOLERANCE
              < |(lotsRemoved.map (·.units)).sum
                  * (transaction.numerator / transaction.denominator)
                  - transaction.units|
          · rw [if_pos h2] at h
            cases h
            exact Or.inr rfl
          · rw [if_neg h2] at h
            have harith := book_lots_error _ _ _ _ _ _ _ h
            rcases he with he | he <;> subst he <;> cases harith

theorem book_exercise_error (transaction : Exercise) (portfolio : Portfolio)
    (sort : Option SortType) (p2 : Portfolio) (e : Err)
    (h : book_exercise transaction portfolio sort = (p2, .error e))
    (he : e = .valueError ∨ e = .inconsistent) : p2 = portfolio := by
  unfold book_exercise at h
  dsimp only at h
  cases hp : part_units
      (Portfolio.get portfolio (transaction.fiaccount, transaction.fromsecurity))
      (openAsOf transaction.datetime) (some (-transaction.fromunits)) with
  | error e2 =>
    rw [hp] at h
    dsimp only at h
    cases h
    rfl
  | ok pair =>
    rw [hp] at h
    obtain ⟨lotsRemoved, sourcePosition1⟩ := pair
    dsimp only at h
    by_cases h2 : UNITS_TOLERANCE
        < |(lotsRemoved.map (·.units)).sum| - |transaction.fromunits|
    · rw [if_pos h2] at h
      cases h
      rfl
    · rw [if_neg h2] at h
      by_cases h3 : transaction.fromunits = 0 ∨ transaction.units = 0
      · rw [if_pos h3] at h
        have harith : Err.arithmeticError = e := by
          have h4 := congrArg Prod.snd h
          injection h4
        rcases he with he | he <;> subst he <;> cases harith
      · rw [if_neg h3] at h
        have harith := book_lots_error _ _ _ _ _ _ _ h
        rcases he with he | he <;> subst he <;> cases harith

/-- C1 amended: if `book` raises ValueError or Inconsistent, the Portfolio
is field-equal to its pre-call state, except that book_transfer and
book_spinoff read the source pocket through defaultdict lookup — adding the
missing key with an empty position — and book_spinoff additionally sorts the
source position in place before its checks, so on a raise the source
position may be left re-sorted. -/
theorem c1_book_atomic_on_failure_amended (transaction : TransactionType)
    (portfolio : Portfolio) (sort : Option SortType) (e : Err)
    (h : (book transaction portfolio sort).2 = .error e)
    (he : e = .valueError ∨ e = .inconsistent) :
    (book transaction portfolio sort).1 = portfolio
    ∨ (∃ t, transaction = .transfer t
        ∧ (book transaction portfolio sort).1
          = (Portfolio.getItem portfolio (t.fromfiaccount, t.fromsecurity)).1)
    ∨ (∃ t, transaction = .spinoff t
        ∧ (book transaction portfolio sort).1
          = Portfolio.set
              (Portfolio.getItem portfolio (t.fiaccount, t.fromsecurity)).1
              (t.fiaccount, t.fromsecurity)
              (sortPosition (sort.getD .fifo)
                (Portfolio.get portfolio (t.fiaccount, t.fromsecurity)))) := by
  rcases hbk : book transaction portfolio sort with ⟨p2, r⟩
  rw [hbk] at h
  dsimp only at h
  subst h
  cases transaction with
  | trade t =>
    simp only [book] at hbk
    exact Or.inl (book_trade_error t portfolio sort p2 e hbk he)
  | returnofcapital t =>
    simp only [book] at hbk
    exact Or.inl (book_returnofcapital_error t portfolio p2 e hbk)
  | split t =>
    simp only [book] at hbk
    exact Or.inl (book_split_error t portfolio p2 e hbk)
  | transfer t =>
    simp only [book] at hbk
    rcases book_transfer_error t portfolio sort p2 e hbk he with h1 | h1
    · exact Or.inl h1
    · exact Or.inr (Or.inl ⟨t, rfl, h1⟩)
  | spinoff t =>
    simp only [book] at hbk
    rcases book_spinoff_error t portfolio sort p2 e hbk he with h1 | h1
    · exact Or.inl h1
    · refine Or.inr (Or.inr ⟨t, rfl, ?_⟩)
      rw [h1, Portfolio.getItem_snd]
  | exercise t =>
    simp only [book] at hbk
    exact Or.inl (book_exercise_error t portfolio sort p2 e hbk he)

set_option maxRecDepth 400000 in
/-- C1 amended witness: a Transfer with a missing source pocket raises
Inconsistent on an empty Portfolio; the amended atomicity conclusion holds
there. -/
theorem c1_witness :
    (book (.transfer c1_transfer) [] none).1 = []
    ∨ (∃ t, TransactionType.transfer c1_transfer = .transfer t
        ∧ (book (.transfer c1_transfer) [] none).1
          = (Portfolio.getItem [] (t.fromfiaccount, t.fromsecurity)).1)
    ∨ (∃ t, TransactionType.transfer c1_transfer = .spinoff t
        ∧ (book (.transfer c1_transfer) [] none).1
          = Portfolio.set
              (Portfolio.getItem [] (t.fiaccount, t.fromsecurity)).1
              (t.fiaccount, t.fromsecurity)
              (sortPosition ((none : Option SortType).getD .fifo)
                (Portfolio.get [] (t.fiaccount, t.fromsecurity)))) :=
  c1_book_atomic_on_failure_amended (.transfer c1_transfer) [] none .inconsistent
    (by with_unfolding_all decide) (Or.inr rfl)

theorem error_ne_ok {α β : Type} (e : α) (x : β) :
    (Except.error e : Except α β) ≠ .ok x := by
  simp

theorem take_basis_mem_opentx_left (lots : List Lot) (c : Lot → Bool) (f : ℚ)
    (t l : List Lot) (h : take_basis lots c f = .ok (t, l)) :
    ∀ x ∈ l, x.opentransaction ∈ lots.map (·.opentransaction) := by
  unfold take_basis at h
  by_cases hf : 0 ≤ f ∧ f ≤ 1
  · rw [if_pos hf, take_basis_go_eq] at h
    cases h
    intro x hx
    simp only [List.mem_map] at hx
    obtain ⟨y, hy, hxy⟩ := hx
    subst hxy
    by_cases hc : c y <;>
      simp [hc, List.mem_map] <;> exact ⟨y, hy, rfl⟩
  · rw [if_neg hf] at h
    cases h

theorem book_transfer_ok_opentx (transaction : Transfer) (portfolio : Portfolio)
    (sort : Option SortType) (p2 : Portfolio) (g : List Gain)
    (h : book_transfer transaction portfolio sort = (p2, .ok g)) :
    ∀ x ∈ Portfolio.get p2 (transaction.fiaccount, transaction.security),
      x.opentransaction
          ∈ (Portfolio.get portfolio (transaction.fiaccount, transaction.security)).map
            (·.opentransaction)
      ∨ x.opentransaction
          ∈ (Portfolio.get portfolio
              (transaction.fromfiaccount, transaction.fromsecurity)).map
            (·.opentransaction) := by
  unfold book_transfer at h
  dsimp only at h
  by_cases h1 : 0 ≤ transaction.units * transaction.fromunits
  · rw [if_pos h1] at h
    exact absurd (congrArg Prod.snd h) (error_ne_ok _ _)
  · rw [if_neg h1] at h
    cases hp : part_units
        (Portfolio.getItem portfolio
          (transaction.fromfiaccount, transaction.fromsecurity)).2
        (openAsOf transaction.datetime) (some (-transaction.fromunits)) with
    | error e2 =>
      rw [hp] at h
      dsimp only at h
      exact absurd (congrArg Prod.snd h) (error_ne_ok _ _)
    | ok pair =>
      rw [hp] at h
      obtain ⟨lotsRemoved, sourcePosition1⟩ := pair
      dsimp only at h
      by_cases h2 : UNITS_TOLERANCE
          < |(lotsRemoved.map (·.units)).sum + transaction.fromunits|
      · rw [if_pos h2] at h
        exact absurd (congrArg Prod.snd h) (error_ne_ok _ _)
      · rw [if_neg h2] at h
        rw [Portfolio.getItem_snd] at hp
        have hsrc1 : ∀ y ∈ sourcePosition1, y.opentransaction
            ∈ (Portfolio.get portfolio
                (transaction.fromfiaccount, transaction.fromsecurity)).map
              (·.opentransaction) :=
          (take_lots_mem_opentx _ _ _ _ _ hp).2
        have hrem : ∀ y ∈ lotsRemoved, y.opentransaction
            ∈ (Portfolio.get portfolio
                (transaction.fromfiaccount, transaction.fromsecurity)).map
              (·.opentransaction) :=
          (take_lots_mem_opentx _ _ _ _ _ hp).1
        have hpocket : mutPocket (.transfer transaction)
            = (transaction.fiaccount, transaction.security) := rfl
        have hmain := book_lots_opentx _ _ _ _ _ _ _
          (fun tx2 =>
            tx2 ∈ (Portfolio.get portfolio
                (transaction.fiaccount, transaction.security)).map (·.opentransaction)
            ∨ tx2 ∈ (Portfolio.get portfolio
                (transaction.fromfiaccount, transaction.fromsecurity)).map
              (·.opentransaction))
          h ?_ ?_
        · rw [hpocket] at hmain
          exact hmain
        · intro y hy
          rw [hpocket] at hy
          by_cases hk : ((transaction.fiaccount, transaction.security) : Pocket)
              = (transaction.fromfiaccount, transaction.fromsecurity)
          · rw [hk] at hy
            rw [Portfolio.get_set_self] at hy
            exact Or.inr (hsrc1 y hy)
          · rw [Portfolio.get_set_ne _ _ _ _ hk, Portfolio.getItem_fst_get] at hy
            exact Or.inl (List.mem_map_of_mem _ hy)
        · intro lot hlot
          exact Or.inr (hrem lot hlot)

theorem book_spinoff_ok_opentx (transaction : Spinoff) (portfolio : Portfolio)
    (sort : Option SortType) (p2 : Portfolio) (g : List Gain)
    (h : book_spinoff transaction portfolio sort = (p2, .ok g)) :
    ∀ x ∈ Portfolio.get p2 (transaction.fiaccount, transaction.security),
      x.opentransaction
          ∈ (Portfolio.get portfolio (transaction.fiaccount, transaction.security)).map
            (·.opentransaction)
      ∨ x.opentransaction
          ∈ (Portfolio.get portfolio
              (transaction.fiaccount, transaction.fromsecurity)).map
            (·.opentransaction) := by
  unfold book_spinoff at h
  dsimp only at h
  by_cases h1 : transaction.numerator ≤ 0 ∨ transaction.denominator ≤ 0
  · rw [if_pos h1] at h
    exact absurd (congrArg Prod.snd h) (error_ne_ok _ _)
  · rw [if_neg h1] at h
    have main : ∀ (cf : ℚ) (lotsRemoved sourcePosition1 : List Lot),
        part_basis
          (sortPosition (sort.getD .fifo)
            (Portfolio.getItem portfolio
              (transaction.fiaccount, transaction.fromsecurity)).2)
          (openAsOf transaction.datetime) cf = .ok (lotsRemoved, sourcePosition1) →
        book_lots
          (Portfolio.set
            (Portfolio.set
              (Portfolio.getItem portfolio
                (transaction.fiaccount, transaction.fromsecurity)).1
              (transaction.fiaccount, transaction.fromsecurity)
              (sortPosition (sort.getD .fifo)
                (Portfolio.getItem portfolio
                  (transaction.fiaccount, transaction.fromsecurity)).2))
            (transaction.fiaccount, transaction.fromsecurity) sourcePosition1)
          (.spinoff transaction)
          (fun lotFrom => (lotFrom.units * (transaction.numerator / transaction.denominator),
                           -lotFrom.price * lotFrom.units,
                           lotFrom.currency, some lotFrom.opentransaction))
          lotsRemoved sort = (p2, .ok g) →
        ∀ x ∈ Portfolio.get p2 (transaction.fiaccount, transaction.security),
          x.opentransaction
              ∈ (Portfolio.get portfolio
                  (transaction.fiaccount, transaction.security)).map (·.opentransaction)
          ∨ x.opentransaction
              ∈ (Portfolio.get portfolio
                  (transaction.fiaccount, transaction.fromsecurity)).map
                (·.opentransaction) := by
      intro cf lotsRemoved sourcePosition1 hpb hbl
      have hsorted : ∀ y ∈ sortPosition (sort.getD .fifo)
          (Portfolio.getItem portfolio
            (transaction.fiaccount, transaction.fromsecurity)).2,
          y.opentransaction ∈ (Portfolio.get portfolio
              (transaction.fiaccount, transaction.fromsecurity)).map
            (·.opentransaction) := by
        intro y hy
        have hy2 := sortPosition_map_mem _ _ y hy
        rw [Portfolio.getItem_snd] at hy2
        exact List.mem_map_of_mem _ hy2
      have hsrc1 : ∀ y ∈ sourcePosition1, y.opentransaction
          ∈ (Portfolio.get portfolio
              (transaction.fiaccount, transaction.fromsecurity)).map
            (·.opentransaction) := by
        intro y hy
        have := take_basis_mem_opentx_left _ _ _ _ _ hpb y hy
        simp only [List.mem_map] at this
        obtain ⟨z, hz, hzy⟩ := this
        rw [← hzy]
        exact hsorted z hz
      have hrem : ∀ y ∈ lotsRemoved, y.opentransaction
          ∈ (Portfolio.get portfolio
              (transaction.fiaccount, transaction.fromsecurity)).map
            (·.opentransaction) := by
        intro y hy
        have := take_basis_mem_opentx _ _ _ _ _ hpb y hy
        simp only [List.mem_map] at this
        obtain ⟨z, hz, hzy⟩ := this
        rw [← hzy]
        exact hsorted z hz
      have hpocket : mutPocket (.spinoff transaction)
          = (transaction.fiaccount, transaction.security) := rfl
      have hmain := book_lots_opentx _ _ _ _ _ _ _
        (fun tx2 =>
          tx2 ∈ (Portfolio.get portfolio
              (transaction.fiaccount, transaction.security)).map (·.opentransaction)
          ∨ tx2 ∈ (Portfolio.get portfolio
              (transaction.fiaccount, transaction.fromsecurity)).map
            (·.opentransaction))
        hbl ?_ ?_
      · rw [hpocket] at hmain
        exact hmain
      · intro y hy
        rw [hpocket] at hy
        by_cases hk : ((transaction.fiaccount, transaction.security) : Pocket)
            = (transaction.fiaccount, transaction.fromsecurity)
        · rw [hk, Portfolio.get_set_self] at hy
          exact Or.inr (hsrc1 y hy)
        · rw [Portfolio.get_set_ne _ _ _ _ hk, Portfolio.get_set_ne _ _ _ _ hk,
            Portfolio.getItem_fst_get] at hy
          exact Or.inl (List.mem_map_of_mem _ hy)
      · intro lot hlot
        exact Or.inr (hrem lot hlot)
    rcases hsp : transaction.securityprice with _ | sp <;>
      rcases hfsp : transaction.fromsecurityprice with _ | fsp <;>
      rw [hsp, hfsp] at h <;> dsimp only at h
    · cases hpb : part_basis
          (sortPosition (sort.getD .fifo)
            (Portfolio.getItem portfolio
              (transaction.fiaccount, transaction.fromsecurity)).2)
          (openAsOf transaction.datetime) 0 with
      | error e2 =>
        rw [hpb] at h
        dsimp only at h
        exact absurd (congrArg Prod.snd h) (error_ne_ok _ _)
      | ok pair =>
        rw [hpb] at h
        obtain ⟨lotsRemoved, sourcePosition1⟩ := pair
        dsimp only at h
        by_cases h2 : UNITS_TOLERANCE
            < |(lotsRemoved.map (·.units)).sum
                * (transaction.numerator / transaction.denominator)
                - transaction.units|
        · rw [if_pos h2] at h
          exact absurd (congrArg Prod.snd h) (error_ne_ok _ _)
        · rw [if_neg h2] at h
          exact main 0 lotsRemoved sourcePosition1 hpb h
    · cases hpb : part_basis
          (sortPosition (sort.getD .fifo)
            (Portfolio.getItem portfolio
              (transaction.fiaccount, transaction.fromsecurity)).2)
          (openAsOf transaction.datetime) 0 with
      | error e2 =>
        rw [hpb] at h
        dsimp only at h
        exact absurd (congrArg Prod.snd h) (error_ne_ok _ _)
      | ok pair =>
        rw [hpb] at h
        obtain ⟨lotsRemoved, sourcePosition1⟩ := pair
        dsimp only at h
        by_cases h2 : UNITS_TOLERANCE
            < |(lotsRemoved.map (·.units)).sum
                * (transaction.numerator / transaction.denominator)
                - transaction.units|
        · rw [if_pos h2] at h
          exact absurd (congrArg Prod.snd h) (error_ne_ok _ _)
        · rw [if_neg h2] at h
          exact main 0 lotsRemoved sourcePosition1 hpb h
    · cases hpb : part_basis
          (sortPosition (sort.getD .fifo)
            (Portfolio.getItem portfolio
              (transaction.fiaccount, transaction.fromsecurity)).2)
          (openAsOf transaction.datetime) 0 with
      | error e2 =>
        rw [hpb] at h
        dsimp only at h
        exact absurd (congrArg Prod.snd h) (error_ne_ok _ _)
      | ok pair =>
        rw [hpb] at h
        obtain ⟨lotsRemoved, sourcePosition1⟩ := pair
        dsimp only at h
        by_cases h2 : UNITS_TOLERANCE
            < |(lotsRemoved.map (·.units)).sum
                * (transaction.numerator / transaction.denominator)
                - transaction.units|
        · rw [if_pos h2] at h
          exact absurd (congrArg Prod.snd h) (error_ne_ok _ _)
        · rw [if_neg h2] at h
          exact main 0 lotsRemoved sourcePosition1 hpb h
    · by_cases hz : sp * transaction.units
          + fsp * transaction.units / (transaction.numerator / transaction.denominator) = 0
      · rw [if_pos hz] at h
        dsimp only at h
        exact absurd (congrArg Prod.snd h) (error_ne_ok _ _)
      · rw [if_neg hz] at h
        dsimp only at h
        cases hpb : part_basis
            (sortPosition (sort.getD .fifo)
              (Portfolio.getItem portfolio
                (transaction.fiaccount, transaction.fromsecurity)).2)
            (openAsOf transaction.datetime)
            (sp * transaction.units
              / (sp * transaction.units
                + fsp * transaction.units
                  / (transaction.numerator / transaction.denominator))) with
        | error e2 =>
          rw [hpb] at h
          dsimp only at h
          exact absurd (congrArg Prod.snd h) (error_ne_ok _ _)
        | ok pair =>
          rw [hpb] at h
          obtain ⟨lotsRemoved, sourcePosition1⟩ := pair
          dsimp only at h
          by_cases h2 : UNITS_TOLERANCE
              < |(lotsRemoved.map (·.units)).sum
                  * (transaction.numerator / transaction.denominator)
                  - transaction.units|
          · rw [if_pos h2] at h
            exact absurd (congrArg Prod.snd h) (error_ne_ok _ _)
          · rw [if_neg h2] at h
            exact main _ lotsRemoved sourcePosition1 hpb h

theorem book_trade_new_lot (transaction : Trade) (portfolio : Portfolio)
    (sort : Option SortType) (hu : transaction.units ≠ 0)
    (hempty : Portfolio.get portfolio
      (transaction.fiaccount, transaction.security) = []) :
    Portfolio.get (book_trade transaction portfolio sort).1
        (transaction.fiaccount, transaction.security)
      = [{ opentransaction := .trade transaction,
           createtransaction := .trade transaction,
           units := transaction.units,
           price := |transaction.cash / transaction.units|,
           currency := transaction.currency }] := by
  unfold book_trade
  rw [if_neg hu]
  have hget : Portfolio.get portfolio (mutPocket (.trade transaction)) = [] := hempty
  have hpart : part_units (sortPosition ((sort.getD .fifo))
      (Portfolio.get portfolio (mutPocket (.trade transaction))))
      (closable transaction.units (TransactionType.datetime (.trade transaction)))
      (some (-transaction.units)) = .ok ([], []) := by
    rw [hget]
    simp [sortPosition, part_units, take_lots]
  rw [mutate_portfolio_eq portfolio (.trade transaction) transaction.units
    transaction.cash transaction.currency none sort hu [] [] hpart]
  dsimp only
  have hpk : mutPocket (.trade transaction)
      = (transaction.fiaccount, transaction.security) := rfl
  rw [hpk] at hget ⊢
  rw [Portfolio.get_set_self]
  simp [hu]

/-- C7: a Transfer or Spinoff that completes leaves in the destination
pocket only lots whose `opentransaction` already belonged to a lot of the
pre-call destination or source position — the holding period is inherited,
never rewritten to the transfer or spinoff transaction; by contrast a Trade
(a bona-fide acquisition) into an empty pocket creates a lot whose
opentransaction is the trade itself. -/
theorem c7_opentransaction_preserved :
    (∀ (t : Transfer) (p : Portfolio) (s : Option SortType) (p2 : Portfolio)
        (g : List Gain), book (.transfer t) p s = (p2, .ok g) →
      ∀ x ∈ Portfolio.get p2 (t.fiaccount, t.security),
        x.opentransaction
            ∈ (Portfolio.get p (t.fiaccount, t.security)).map (·.opentransaction)
        ∨ x.opentransaction
            ∈ (Portfolio.get p (t.fromfiaccount, t.fromsecurity)).map (·.opentransaction))
    ∧ (∀ (t : Spinoff) (p : Portfolio) (s : Option SortType) (p2 : Portfolio)
        (g : List Gain), book (.spinoff t) p s = (p2, .ok g) →
      ∀ x ∈ Portfolio.get p2 (t.fiaccount, t.security),
        x.opentransaction
            ∈ (Portfolio.get p (t.fiaccount, t.security)).map (·.opentransaction)
        ∨ x.opentransaction
            ∈ (Portfolio.get p (t.fiaccount, t.fromsecurity)).map (·.opentransaction))
    ∧ (∀ (t : Trade) (p : Portfolio) (s : Option SortType), t.units ≠ 0 →
        Portfolio.get p (t.fiaccount, t.security) = [] →
        Portfolio.get (book (.trade t) p s).1 (t.fiaccount, t.security)
          = [{ opentransaction := .trade t, createtransaction := .trade t,
               units := t.units, price := |t.cash / t.units|,
               currency := t.currency }]) := by
  refine ⟨?_, ?_, ?_⟩
  · intro t p s p2 g h
    exact book_transfer_ok_opentx t p s p2 g h
  · intro t p s p2 g h
    exact book_spinoff_ok_opentx t p s p2 g h
  · intro t p s hu hempty
    exact book_trade_new_lot t p s hu hempty

set_option maxRecDepth 400000 in
/-- C7 witness: transferring the whole 100-unit source position into an
empty destination pocket creates one destination lot, and its
opentransaction is the original buy, a member of the source position's
opentransactions. -/
theorem c7_witness :
    (∀ x ∈ Portfolio.get [(("FA", "FS"), ([] : List Lot)),
        (c2_pocket, [c7_dest_lot])] (c7_transfer.fiaccount, c7_transfer.security),
      x.opentransaction
          ∈ (Portfolio.get [((("FA", "FS") : Pocket), [c2_lot1])]
              (c7_transfer.fiaccount, c7_transfer.security)).map (·.opentransaction)
      ∨ x.opentransaction
          ∈ (Portfolio.get [((("FA", "FS") : Pocket), [c2_lot1])]
              (c7_transfer.fromfiaccount, c7_transfer.fromsecurity)).map
            (·.opentransaction))
    ∧ Portfolio.get (book (.trade c2_buy1) [] none).1
        (c2_buy1.fiaccount, c2_buy1.security)
      = [{ opentransaction := .trade c2_buy1, createtransaction := .trade c2_buy1,
           units := c2_buy1.units, price := |c2_buy1.cash / c2_buy1.units|,
           currency := c2_buy1.currency }] :=
  ⟨c7_opentransaction_preserved.1 c7_transfer [(("FA", "FS"), [c2_lot1])] none
      [(("FA", "FS"), []), (c2_pocket, [c7_dest_lot])] []
      (by with_unfolding_all decide),
   c7_opentransaction_preserved.2.2 c2_buy1 [] none
      (by with_unfolding_all decide) (by with_unfolding_all decide)⟩

theorem filter_map_units_sum_nonneg (l : List Lot) (c : Lot → Bool)
    (h : ∀ x ∈ l, c x = true → 0 ≤ x.units) :
    0 ≤ ((l.filter c).map (·.units)).sum := by
  apply List.sum_nonneg
  intro q hq
  simp only [List.mem_map] at hq
  obtain ⟨x, hx, hxq⟩ := hq
  rw [← hxq]
  exact h x (List.mem_of_mem_filter hx) (List.of_mem_filter hx)

theorem list_sum_nonpos (l : List ℚ) (h : ∀ x ∈ l, x ≤ 0) : l.sum ≤ 0 := by
  induction l with
  | nil => simp
  | cons a t ih =>
    simp only [List.sum_cons]
    have h1 := h a (List.mem_cons_self a t)
    have h2 := ih (fun x hx => h x (List.mem_cons_of_mem a hx))
    linarith

theorem filter_map_units_sum_nonpos (l : List Lot) (c : Lot → Bool)
    (h : ∀ x ∈ l, c x = true → x.units ≤ 0) :
    ((l.filter c).map (·.units)).sum ≤ 0 := by
  apply list_sum_nonpos
  intro q hq
  simp only [List.mem_map] at hq
  obtain ⟨x, hx, hxq⟩ := hq
  rw [← hxq]
  exact h x (List.mem_of_mem_filter hx) (List.of_mem_filter hx)

theorem take_lots_all_taken_pos (lots : List Lot) (c : Lot → Bool) (u : ℚ)
    (hu : 0 < u)
    (hsame : ∀ lot ∈ lots, c lot = true → 0 < lot.units)
    (hsum : ((lots.filter c).map (·.units)).sum < u) :
    take_lots lots c (some u) = .ok (lots.filter c, lots.filter (fun x => ! c x)) := by
  induction lots generalizing u with
  | nil => simp [take_lots]
  | cons lot rest ih =>
    have hSnonneg : 0 ≤ ((rest.filter c).map (·.units)).sum :=
      filter_map_units_sum_nonneg rest c (fun y hy hcy =>
        le_of_lt (hsame y (List.mem_cons_of_mem lot hy) hcy))
    cases hcb : c lot
    · have hsum2 : ((rest.filter c).map (·.units)).sum < u := by
        have heq : (((lot :: rest).filter c).map (·.units)).sum
            = ((rest.filter c).map (·.units)).sum := by
          simp [List.filter_cons, hcb]
        rw [heq] at hsum
        exact hsum
      have hrec := ih u hu
        (fun y hy hcy => hsame y (List.mem_cons_of_mem lot hy) hcy) hsum2
      simp [take_lots, hcb, hrec, List.filter_cons]
    · have hlpos : 0 < lot.units := hsame lot (List.mem_cons_self lot rest) hcb
      have hfil : (((lot :: rest).filter c).map (·.units)).sum
          = lot.units + ((rest.filter c).map (·.units)).sum := by
        simp [List.filter_cons, hcb]
      rw [hfil] at hsum
      have habs : |lot.units| ≤ |u| := by
        rw [abs_of_pos hlpos, abs_of_pos hu]
        linarith
      have hne : u ≠ 0 := ne_of_gt hu
      have hsgn : lot.units * u > 0 := mul_pos hlpos hu
      have hu1 : 0 < u - lot.units := by linarith
      have hsum1 : ((rest.filter c).map (·.units)).sum < u - lot.units := by linarith
      have hrec := ih (u - lot.units) hu1
        (fun y hy hcy => hsame y (List.mem_cons_of_mem lot hy) hcy) hsum1
      simp [take_lots, hcb, hne, habs, hsgn, hrec, List.filter_cons]

theorem take_lots_all_taken_neg (lots : List Lot) (c : Lot → Bool) (u : ℚ)
    (hu : u < 0)
    (hsame : ∀ lot ∈ lots, c lot = true → lot.units < 0)
    (hsum : u < ((lots.filter c).map (·.units)).sum) :
    take_lots lots c (some u) = .ok (lots.filter c, lots.filter (fun x => ! c x)) := by
  induction lots generalizing u with
  | nil => simp [take_lots]
  | cons lot rest ih =>
    have hSnonpos : ((rest.filter c).map (·.units)).sum ≤ 0 :=
      filter_map_units_sum_nonpos rest c (fun y hy hcy =>
        le_of_lt (hsame y (List.mem_cons_of_mem lot hy) hcy))
    cases hcb : c lot
    · have hsum2 : u < ((rest.filter c).map (·.units)).sum := by
        have heq : (((lot :: rest).filter c).map (·.units)).sum
            = ((rest.filter c).map (·.units)).sum := by
          simp [List.filter_cons, hcb]
        rw [heq] at hsum
        exact hsum
      have hrec := ih u hu
        (fun y hy hcy => hsame y (List.mem_cons_of_mem lot hy) hcy) hsum2
      simp [take_lots, hcb, hrec, List.filter_cons]
    · have hlneg : lot.units < 0 := hsame lot (List.mem_cons_self lot rest) hcb
      have hfil : (((lot :: rest).filter c).map (·.units)).sum
          = lot.units + ((rest.filter c).map (·.units)).sum := by
        simp [List.filter_cons, hcb]
      rw [hfil] at hsum
      have habs : |lot.units| ≤ |u| := by
        rw [abs_of_neg hlneg, abs_of_neg hu]
        linarith
      have hne : u ≠ 0 := ne_of_lt hu
      have hsgn : lot.units * u > 0 := mul_pos_of_neg_of_neg hlneg hu
      have hu1 : u - lot.units < 0 := by linarith
      have hsum1 : u - lot.units < ((rest.filter c).map (·.units)).sum := by linarith
      have hrec := ih (u - lot.units) hu1
        (fun y hy hcy => hsame y (List.mem_cons_of_mem lot hy) hcy) hsum1
      simp [take_lots, hcb, hne, habs, hsgn, hrec, List.filter_cons]

/-- C10: for an Exercise whose open option position holds strictly fewer
matching units than |fromunits| by more than the units tolerance (and whose
matching lots all have the sign the removal cap expects), `book_exercise`
does not raise Inconsistent: the one-sided tolerance check `|removed| -
|fromunits| > tolerance` cannot fire, the insufficient position is consumed
in full, and the handler completes, booking delivered shares only for the
units actually removed. -/
theorem c10_exercise_insufficient_position (transaction : Exercise)
    (portfolio : Portfolio) (sort : Option SortType)
    (hsigns : transaction.units * transaction.fromunits < 0)
    (hsec : transaction.fromsecurity ≠ transaction.security)
    (hsame : ∀ lot ∈ Portfolio.get portfolio
        (transaction.fiaccount, transaction.fromsecurity),
      openAsOf transaction.datetime lot = true →
      0 < lot.units * (-transaction.fromunits))
    (hshort : |(((Portfolio.get portfolio
          (transaction.fiaccount, transaction.fromsecurity)).filter
          (openAsOf transaction.datetime)).map (·.units)).sum|
        + UNITS_TOLERANCE < |transaction.fromunits|) :
    ∃ p2 g, book_exercise transaction portfolio sort = (p2, .ok g)
      ∧ Portfolio.get p2 (transaction.fiaccount, transaction.fromsecurity)
          = (Portfolio.get portfolio
              (transaction.fiaccount, transaction.fromsecurity)).filter
              (fun lot => ! openAsOf transaction.datetime lot) := by
  have htol : (0 : ℚ) < UNITS_TOLERANCE := by norm_num [UNITS_TOLERANCE]
  have hfrom0 : transaction.fromunits ≠ 0 := by
    intro h0
    rw [h0, mul_zero] at hsigns
    exact lt_irrefl 0 hsigns
  have hunits0 : transaction.units ≠ 0 := by
    intro h0
    rw [h0, zero_mul] at hsigns
    exact lt_irrefl 0 hsigns
  have htake : part_units
      (Portfolio.get portfolio (transaction.fiaccount, transaction.fromsecurity))
      (openAsOf transaction.datetime) (some (-transaction.fromunits))
      = .ok ((Portfolio.get portfolio
            (transaction.fiaccount, transaction.fromsecurity)).filter
            (openAsOf transaction.datetime),
          (Portfolio.get portfolio
            (transaction.fiaccount, transaction.fromsecurity)).filter
            (fun x => ! openAsOf transaction.datetime x)) := by
    rcases lt_trichotomy transaction.fromunits 0 with hlt | heq | hgt
    · have hupos : 0 < -transaction.fromunits := by linarith
      apply take_lots_all_taken_pos _ _ _ hupos
      · intro lot hm hc
        have hp := hsame lot hm hc
        nlinarith
      · have hs0 : 0 ≤ (((Portfolio.get portfolio
            (transaction.fiaccount, transaction.fromsecurity)).filter
            (openAsOf transaction.datetime)).map (·.units)).sum := by
          apply filter_map_units_sum_nonneg
          intro x hx hcx
          have hp := hsame x hx hcx
          nlinarith
        rw [abs_of_nonneg hs0, abs_of_neg hlt] at hshort
        linarith
    · exact absurd heq hfrom0
    · have huneg : -transaction.fromunits < 0 := by linarith
      apply take_lots_all_taken_neg _ _ _ huneg
      · intro lot hm hc
        have hp := hsame lot hm hc
        nlinarith
      · have hs0 : (((Portfolio.get portfolio
            (transaction.fiaccount, transaction.fromsecurity)).filter
            (openAsOf transaction.datetime)).map (·.units)).sum ≤ 0 := by
          apply filter_map_units_sum_nonpos
          intro x hx hcx
          have hp := hsame x hx hcx
          nlinarith
        rw [abs_of_nonpos hs0, abs_of_pos hgt] at hshort
        linarith
  have hcheck : ¬ (UNITS_TOLERANCE
      < |(((Portfolio.get portfolio
            (transaction.fiaccount, transaction.fromsecurity)).filter
            (openAsOf transaction.datetime)).map (·.units)).sum|
          - |transaction.fromunits|) := by
    intro hcon
    linarith
  have hor : ¬ (transaction.fromunits = 0 ∨ transaction.units = 0) := by
    rintro (h0 | h0)
    · exact hfrom0 h0
    · exact hunits0 h0
  have hk : ((transaction.fiaccount, transaction.fromsecurity) : Pocket)
      ≠ mutPocket (.exercise transaction) := by
    intro heq
    exact hsec (congrArg Prod.snd heq)
  obtain ⟨p2, g, hbl⟩ := book_lots_ok_exists
    (Portfolio.set portfolio (transaction.fiaccount, transaction.fromsecurity)
      ((Portfolio.get portfolio
          (transaction.fiaccount, transaction.fromsecurity)).filter
        (fun x => ! openAsOf transaction.datetime x)))
    (.exercise transaction)
    (fun lot => (lot.units * |transaction.units / transaction.fromunits|,
                 lot.price * -lot.units + lot.units
                   * |transaction.units / transaction.fromunits|
                   * |transaction.cash / transaction.units|,
                 lot.currency, none))
    ((Portfolio.get portfolio
        (transaction.fiaccount, transaction.fromsecurity)).filter
      (openAsOf transaction.datetime)) sort
    (by
      intro lot hm
      have hlu : lot.units ≠ 0 := by
        have hp := hsame lot (List.mem_of_mem_filter hm) (List.of_mem_filter hm)
        intro h0
        rw [h0, zero_mul] at hp
        exact lt_irrefl 0 hp
      have hmul : |transaction.units / transaction.fromunits| ≠ 0 :=
        abs_ne_zero.mpr (div_ne_zero hunits0 hfrom0)
      exact mul_ne_zero hlu hmul)
  have hbe : book_exercise transaction portfolio sort = (p2, .ok g) := by
    unfold book_exercise
    dsimp only
    rw [htake]
    dsimp only
    rw [if_neg hcheck, if_neg hor]
    exact hbl
  refine ⟨p2, g, hbe, ?_⟩
  have hframe := book_lots_fst_frame
    (Portfolio.set portfolio (transaction.fiaccount, transaction.fromsecurity)
      ((Portfolio.get portfolio
          (transaction.fiaccount, transaction.fromsecurity)).filter
        (fun x => ! openAsOf transaction.datetime x)))
    (.exercise transaction)
    (fun lot => (lot.units * |transaction.units / transaction.fromunits|,
                 lot.price * -lot.units + lot.units
                   * |transaction.units / transaction.fromunits|
                   * |transaction.cash / transaction.units|,
                 lot.currency, none))
    ((Portfolio.get portfolio
        (transaction.fiaccount, transaction.fromsecurity)).filter
      (openAsOf transaction.datetime)) sort
    (transaction.fiaccount, transaction.fromsecurity) hk
  rw [hbl] at hframe
  dsimp only at hframe
  rw [hframe, Portfolio.get_set_self]

set_option maxRecDepth 400000 in
/-- C10 witness: exercising 100 option units against a 50-unit option
position completes without Inconsistent, consuming the position in full. -/
theorem c10_witness :
    ∃ p2 g, book_exercise c10_exercise [(("A", "OPT"), [c10_option_lot])] none
        = (p2, .ok g)
      ∧ Portfolio.get p2 (c10_exercise.fiaccount, c10_exercise.fromsecurity)
          = (Portfolio.get [((("A", "OPT") : Pocket), [c10_option_lot])]
              (c10_exercise.fiaccount, c10_exercise.fromsecurity)).filter
              (fun lot => ! openAsOf c10_exercise.datetime lot) :=
  c10_exercise_insufficient_position c10_exercise
    [(("A", "OPT"), [c10_option_lot])] none
    (by with_unfolding_all decide)
    (by with_unfolding_all decide)
    (by with_unfolding_all decide)
    (by with_unfolding_all decide)

theorem lookup_mem {p : Portfolio} {k : Pocket} {v : List Lot}
    (h : List.lookup k p = some v) : (k, v) ∈ p := by
  induction p with
  | nil => simp at h
  | cons kv rest ih =>
    cases kv with
    | mk k1 v1 =>
      by_cases hk : k = k1
      · subst hk
        rw [List.lookup_cons] at h
        simp only [beq_self_eq_true, if_true] at h
        cases h
        exact List.mem_cons_self _ _
      · rw [List.lookup_cons] at h
        simp only [beq_false_of_ne hk] at h
        exact List.mem_cons_of_mem _ (ih h)

theorem Portfolio.mem_get_mem (p : Portfolio) (k : Pocket) (l : Lot)
    (h : l ∈ Portfolio.get p k) : ∃ kv ∈ p, kv.1 = k ∧ l ∈ kv.2 := by
  unfold Portfolio.get at h
  cases hl : List.lookup k p with
  | none => rw [hl] at h; simp at h
  | some v =>
    rw [hl] at h
    simp only [Option.getD_some] at h
    exact ⟨(k, v), lookup_mem hl, rfl, h⟩

theorem Portfolio.get_eq_nil_of_not_mem_keys (p : Portfolio) (k : Pocket)
    (h : ∀ kv ∈ p, kv.1 ≠ k) : Portfolio.get p k = [] := by
  unfold Portfolio.get
  cases hl : List.lookup k p with
  | none => simp
  | some v =>
    exact absurd rfl (h (k, v) (lookup_mem hl))

theorem appendLot_get_self (p : Portfolio) (k : Pocket) (lot : Lot) :
    Portfolio.get (Portfolio.appendLot p k lot) k = Portfolio.get p k ++ [lot] := by
  unfold Portfolio.appendLot
  rw [Portfolio.get_set_self, Portfolio.getItem_snd]

theorem appendLot_get_ne (p : Portfolio) (k k2 : Pocket) (lot : Lot)
    (h : k2 ≠ k) :
    Portfolio.get (Portfolio.appendLot p k lot) k2 = Portfolio.get p k2 := by
  unfold Portfolio.appendLot
  rw [Portfolio.get_set_ne _ _ _ _ h, Portfolio.getItem_fst_get]

theorem foldl_appendLot_get_self (pos : List Lot) (k : Pocket) (p : Portfolio)
    (f : Lot → Lot) :
    Portfolio.get (pos.foldl (fun q lot => Portfolio.appendLot q k (f lot)) p) k
      = Portfolio.get p k ++ pos.map f := by
  induction pos generalizing p with
  | nil => simp
  | cons lot rest ih =>
    simp only [List.foldl_cons, List.map_cons]
    rw [ih (Portfolio.appendLot p k (f lot)), appendLot_get_self]
    simp

theorem foldl_appendLot_get_ne (pos : List Lot) (k k2 : Pocket) (p : Portfolio)
    (f : Lot → Lot) (h : k2 ≠ k) :
    Portfolio.get (pos.foldl (fun q lot => Portfolio.appendLot q k (f lot)) p) k2
      = Portfolio.get p k2 := by
  induction pos generalizing p with
  | nil => simp
  | cons lot rest ih =>
    simp only [List.foldl_cons]
    rw [ih (Portfolio.appendLot p k (f lot)), appendLot_get_ne _ _ _ _ h]

theorem unflatten_rows_append (r1 r2 : List FlatLot) (p p1 : Portfolio)
    (h : unflatten_rows r1 p = .ok p1) :
    unflatten_rows (r1 ++ r2) p = unflatten_rows r2 p1 := by
  induction r1 generalizing p with
  | nil =>
    simp only [unflatten_rows] at h
    cases h
    simp
  | cons row rest ih =>
    simp only [unflatten_rows, List.cons_append] at h ⊢
    by_cases hz : row.units = 0
    · rw [if_pos hz] at h ⊢
      exact ih p h
    · rw [if_neg hz] at h ⊢
      cases hul : unflatten_lot row with
      | error e => rw [hul] at h; cases h
      | ok pair =>
        rw [hul] at h
        obtain ⟨k, lot⟩ := pair
        dsimp only at h ⊢
        exact ih _ h

theorem unflatten_pocket_rows (a : Account) (sec : Security) (pos : List Lot)
    (p : Portfolio) (hu : ∀ lot ∈ pos, round2 lot.units ≠ 0) :
    unflatten_rows (((pos.map (flatten_lot a sec)).map export_flatlot).filter
        (fun row => decide (row.units ≠ 0))) p
      = .ok (pos.foldl (fun q lot => Portfolio.appendLot q (a, sec) (tripLot lot)) p) := by
  induction pos generalizing p with
  | nil => simp [unflatten_rows]
  | cons lot rest ih =>
    have hl := hu lot (List.mem_cons_self lot rest)
    have hrest := fun y hy => hu y (List.mem_cons_of_mem lot hy)
    simp only [List.map_cons, List.filter_cons]
    have hkeep : decide ((export_flatlot (flatten_lot a sec lot)).units ≠ 0) = true := by
      simp only [export_flatlot, flatten_lot, decide_eq_true_eq]
      exact hl
    rw [hkeep]
    simp only [if_true]
    rw [show (export_flatlot (flatten_lot a sec lot)
        :: ((rest.map (flatten_lot a sec)).map export_flatlot).filter
          (fun row => decide (row.units ≠ 0)))
      = [export_flatlot (flatten_lot a sec lot)]
        ++ ((rest.map (flatten_lot a sec)).map export_flatlot).filter
          (fun row => decide (row.units ≠ 0)) from rfl]
    have hone : unflatten_rows [export_flatlot (flatten_lot a sec lot)] p
        = .ok (Portfolio.appendLot p (a, sec) (tripLot lot)) := by
      simp only [unflatten_rows, export_flatlot, flatten_lot]
      rw [if_neg hl]
      simp only [unflatten_lot]
      rfl
    rw [unflatten_rows_append _ _ _ _ hone, ih _ hrest]
    simp

theorem unflatten_flatten_general (P : Portfolio) (p0 : Portfolio)
    (hnd : (P.map Prod.fst).Nodup)
    (hu : ∀ kv ∈ P, ∀ lot ∈ kv.2, round2 lot.units ≠ 0) :
    ∃ p2, unflatten_rows (flatten_portfolio P false) p0 = .ok p2
      ∧ ∀ k, Portfolio.get p2 k
          = Portfolio.get p0 k ++ (Portfolio.get P k).map tripLot := by
  induction P generalizing p0 with
  | nil =>
    refine ⟨p0, rfl, ?_⟩
    intro k
    simp [Portfolio.get]
  | cons kv rest ih =>
    obtain ⟨⟨a, sec⟩, pos⟩ := kv
    have hnd2 : (rest.map Prod.fst).Nodup := by
      simp only [List.map_cons, List.nodup_cons] at hnd
      exact hnd.2
    have hkey : ∀ kv2 ∈ rest, kv2.1 ≠ ((a, sec) : Pocket) := by
      simp only [List.map_cons, List.nodup_cons] at hnd
      intro kv2 hkv2 heq
      exact hnd.1 (heq ▸ List.mem_map_of_mem Prod.fst hkv2)
    have hupos : ∀ lot ∈ pos, round2 lot.units ≠ 0 :=
      hu ((a, sec), pos) (List.mem_cons_self _ _)
    have hurest : ∀ kv2 ∈ rest, ∀ lot ∈ kv2.2, round2 lot.units ≠ 0 :=
      fun kv2 hkv2 => hu kv2 (List.mem_cons_of_mem _ hkv2)
    have hflat : flatten_portfolio (((a, sec), pos) :: rest) false
        = ((pos.map (flatten_lot a sec)).map export_flatlot).filter
            (fun row => decide (row.units ≠ 0))
          ++ flatten_portfolio rest false := by
      simp [flatten_portfolio]
    have hone := unflatten_pocket_rows a sec pos p0 hupos
    obtain ⟨p2, hrec, hget⟩ := ih
      (pos.foldl (fun q lot => Portfolio.appendLot q (a, sec) (tripLot lot)) p0)
      hnd2 hurest
    refine ⟨p2, ?_, ?_⟩
    · rw [hflat, unflatten_rows_append _ _ _ _ hone]
      exact hrec
    · intro k
      rw [hget k]
      by_cases hk : k = ((a, sec) : Pocket)
      · subst hk
        rw [foldl_appendLot_get_self]
        have hrest0 : Portfolio.get rest ((a, sec) : Pocket) = [] :=
          Portfolio.get_eq_nil_of_not_mem_keys rest _ hkey
        rw [hrest0]
        have hgetP : Portfolio.get (((a, sec), pos) :: rest) ((a, sec) : Pocket)
            = pos := by
          unfold Portfolio.get
          simp [List.lookup_cons]
        rw [hgetP]
        simp
      · rw [foldl_appendLot_get_ne _ _ _ _ _ hk]
        have hgetP : Portfolio.get (((a, sec), pos) :: rest) k
            = Portfolio.get rest k := by
          unfold Portfolio.get
          rw [List.lookup_cons]
          simp only [beq_false_of_ne hk]
        rw [hgetP]

/-- C9 amended: the flatten / unflatten round trip preserves, for every
pocket of a key-unique Portfolio whose lots all survive the rounding
(`round2 units` nonzero), the list of (units, cost) pairs up to rounding of
units and cost to two decimal places (`export_flatlot` quantizes both), and
it preserves the opening transaction only as its uniqueid and datetime (the
rest of the opening transaction is replaced by a mock trade), with
consolidate = false. -/
theorem c9_roundtrip_amended (P : Portfolio)
    (hnd : (P.map Prod.fst).Nodup)
    (hu : ∀ kv ∈ P, ∀ lot ∈ kv.2, round2 lot.units ≠ 0) :
    ∃ p2, unflatten_portfolio (flatten_portfolio P false) = .ok p2
      ∧ ∀ k, (Portfolio.get p2 k).map
            (fun l => (l.units, l.units * l.price, l.opentransaction.uniqueid,
                       l.opentransaction.datetime, l.currency))
          = (Portfolio.get P k).map
            (fun l => (round2 l.units, round2 (l.units * l.price),
                       l.opentransaction.uniqueid, l.opentransaction.datetime,
                       l.currency)) := by
  obtain ⟨p2, h1, h2⟩ := unflatten_flatten_general P [] hnd hu
  refine ⟨p2, h1, ?_⟩
  intro k
  rw [h2 k]
  have hnil : Portfolio.get [] k = [] := by simp [Portfolio.get]
  rw [hnil, List.nil_append, List.map_map]
  apply List.map_congr_left
  intro l hl
  obtain ⟨kv, hkv, hkvk, hlkv⟩ := Portfolio.mem_get_mem P k l hl
  have hl2 : round2 l.units ≠ 0 := hu kv hkv l hlkv
  have hcost : (tripLot l).units * (tripLot l).price
      = round2 (l.units * l.price) := by
    simp only [tripLot]
    rw [mul_comm, div_mul_cancel₀ _ hl2]
  show ((tripLot l).units, (tripLot l).units * (tripLot l).price,
        (tripLot l).opentransaction.uniqueid,
        (tripLot l).opentransaction.datetime, (tripLot l).currency)
      = (round2 l.units, round2 (l.units * l.price), l.opentransaction.uniqueid,
         l.opentransaction.datetime, l.currency)
  rw [hcost]
  rfl

set_option maxRecDepth 400000 in
/-- C9 amended witness: the round trip at a one-pocket portfolio holding a
single lot of 1 unit priced 1/3. -/
theorem c9_witness :
    ∃ p2, unflatten_portfolio (flatten_portfolio [(c2_pocket, [c9_lot])] false)
        = .ok p2
      ∧ ∀ k, (Portfolio.get p2 k).map
            (fun l => (l.units, l.units * l.price, l.opentransaction.uniqueid,
                       l.opentransaction.datetime, l.currency))
          = (Portfolio.get [(c2_pocket, [c9_lot])] k).map
            (fun l => (round2 l.units, round2 (l.units * l.price),
                       l.opentransaction.uniqueid, l.opentransaction.datetime,
                       l.currency)) :=
  c9_roundtrip_amended [(c2_pocket, [c9_lot])]
    (by with_unfolding_all decide) (by with_unfolding_all decide)

set_option maxRecDepth 400000 in
/-- C2: starting from an empty pocket, booking a buy of 100 units at price 10
dated day 1, then a buy of 200 units at price 11 dated day 2, then a sell of
150 units at price 15 dated day 3 under the FIFO sort (the default) returns
exactly two Gains — 100 units at price 15 against the first lot and 50 units
at price 15 against the second lot — and leaves the pocket holding a single
residual lot of 150 units at price 11. -/
theorem c2_fifo_close_scenario :
    book (.trade c2_buy1) [] none = ([(c2_pocket, [c2_lot1])], .ok [])
    ∧ book (.trade c2_buy2) [(c2_pocket, [c2_lot1])] none
        = ([(c2_pocket, [c2_lot1, c2_lot2])], .ok [])
    ∧ book (.trade c2_sell) [(c2_pocket, [c2_lot1, c2_lot2])] none
        = ([(c2_pocket, [c2_lot2_residual])],
           .ok [{ lot := c2_lot1, transaction := .trade c2_sell, price := 15 },
                { lot := c2_lot2_closed,
                  transaction := .trade c2_sell, price := 15 }]) :=
  ⟨by with_unfolding_all decide, by with_unfolding_all decide,
   by with_unfolding_all decide⟩

/-- C8: `translate_transaction` scales only `cash` for Trade, ReturnOfCapital
and Exercise (setting the currency), scales only `securityprice` and
`fromsecurityprice` for Spinoff, and returns Split and Transfer entirely
unchanged; every other field is equal before and after. -/
theorem c8_translate_transaction_frame (currency : Currency) (rate : ℚ) :
    (∀ t : Trade, ∃ t2, translate_transaction (.trade t) currency rate = .trade t2
      ∧ t2.cash = t.cash * rate ∧ t2.currency = currency
      ∧ t2.uniqueid = t.uniqueid ∧ t2.datetime = t.datetime
      ∧ t2.dtsettle = t.dtsettle ∧ t2.fiaccount = t.fiaccount
      ∧ t2.security = t.security ∧ t2.units = t.units)
    ∧ (∀ t : ReturnOfCapital,
        ∃ t2, translate_transaction (.returnofcapital t) currency rate = .returnofcapital t2
      ∧ t2.cash = t.cash * rate ∧ t2.currency = currency
      ∧ t2.uniqueid = t.uniqueid ∧ t2.datetime = t.datetime
      ∧ t2.dtsettle = t.dtsettle ∧ t2.fiaccount = t.fiaccount
      ∧ t2.security = t.security)
    ∧ (∀ t : Exercise, ∃ t2, translate_transaction (.exercise t) currency rate = .exercise t2
      ∧ t2.cash = t.cash * rate ∧ t2.currency = currency
      ∧ t2.uniqueid = t.uniqueid ∧ t2.datetime = t.datetime
      ∧ t2.dtsettle = t.dtsettle ∧ t2.fiaccount = t.fiaccount
      ∧ t2.security = t.security ∧ t2.units = t.units
      ∧ t2.fromsecurity = t.fromsecurity ∧ t2.fromunits = t.fromunits)
    ∧ (∀ t : Spinoff, ∃ t2, translate_transaction (.spinoff t) currency rate = .spinoff t2
      ∧ t2.securityprice = t.securityprice.map (· * rate)
      ∧ t2.fromsecurityprice = t.fromsecurityprice.map (· * rate)
      ∧ t2.uniqueid = t.uniqueid ∧ t2.datetime = t.datetime
      ∧ t2.dtsettle = t.dtsettle ∧ t2.fiaccount = t.fiaccount
      ∧ t2.security = t.security ∧ t2.units = t.units
      ∧ t2.numerator = t.numerator ∧ t2.denominator = t.denominator
      ∧ t2.fromsecurity = t.fromsecurity)
    ∧ (∀ t : Split, translate_transaction (.split t) currency rate = .split t)
    ∧ (∀ t : Transfer, translate_transaction (.transfer t) currency rate = .transfer t) := by
  refine ⟨fun t => ⟨_, rfl, rfl, rfl, rfl, rfl, rfl, rfl, rfl, rfl⟩,
          fun t => ⟨_, rfl, rfl, rfl, rfl, rfl, rfl, rfl, rfl⟩,
          fun t => ⟨_, rfl, rfl, rfl, rfl, rfl, rfl, rfl, rfl, rfl, rfl, rfl⟩,
          fun t => ⟨_, rfl, rfl, rfl, rfl, rfl, rfl, rfl, rfl, rfl, rfl, rfl, rfl⟩,
          fun t => rfl, fun t => rfl⟩

/-- C1 counterexample: booking a Transfer whose source pocket is absent from
an empty Portfolio raises Inconsistent, yet leaves the Portfolio with a new
pocket key (bound to an empty position) inserted by the defaultdict lookup:
the Portfolio is not field-equal to its pre-call state. -/
theorem c1_counterexample :
    book (.transfer c1_transfer) [] none
      = ([(("FA", "FS"), [])], .error .inconsistent)
    ∧ ([(("FA", "FS"), [])] : Portfolio) ≠ ([] : Portfolio) := by
  with_unfolding_all decide

/-- C6 counterexample: a Split dated before the only lot of a nonempty
position was created (so no lot matches `openAsOf`) raises ValueError — from
unpacking an empty `zip` — not Inconsistent as the claim states. -/
theorem c6_counterexample :
    (book (.split c6_split) [(c2_pocket, [c2_lot1])] none).2 = .error .valueError
    ∧ Err.valueError ≠ Err.inconsistent := by
  with_unfolding_all decide

/-- C9 counterexample: flattening rounds cost to two decimal places
(`export_flatlot`), so a portfolio holding one lot of 1 unit at price 1/3
round-trips to a lot of cost 0.33: the mapping of pocket to the multiset of
(units, units * price) pairs is not preserved. -/
theorem c9_counterexample :
    unflatten_portfolio (flatten_portfolio [(c2_pocket, [c9_lot])] false)
      = .ok [(c2_pocket,
          [{ opentransaction := dummyOpenTransaction "b1" 1,
             createtransaction := dummyOpenTransaction "b1" 1,
             units := 1, price := 33 / 100, currency := "USD" }])]
    ∧ ([((1 : ℚ), (33 : ℚ) / 100)] : List (ℚ × ℚ))
        ≠ [((1 : ℚ), (1 : ℚ) / 3)]
    ∧ (Portfolio.get [(c2_pocket, [c9_lot])] c2_pocket).map
        (fun l => (l.units, l.units * l.price)) = [((1 : ℚ), (1 : ℚ) / 3)] := by
  with_unfolding_all decide

end CapGains
